import Mathlib

/-!
Verification of the Apriori frequent-itemset miner
(`find_itemsets_rules.py`) against its specification.

The Python dictionaries are modelled as association lists with Python's
insertion-order semantics: updating an existing key rewrites its value in
place, a fresh key is appended at the end.  Python `set`s become `Finset`s.
Items are drawn from an arbitrary linearly ordered type `α` (the source uses
string tokens; any totally ordered discrete type works, per the spec's data
model).  Dictionary keys are heterogeneous in the source (bare items for
length-1 itemsets, tuples for longer ones); the `Key` type mirrors that.
-/

/-- A dictionary key: Python uses the bare item for length-1 itemsets and a
tuple of items for length-`k` itemsets (`k ≥ 2`). -/
inductive Key (α : Type) where
  | single (a : α)
  | tuple (t : List α)
deriving DecidableEq

/-- Python dict modelled as an association list in insertion order. -/
abbrev Dict (κ ν : Type) := List (κ × ν)

/-- First-match lookup, i.e. `d[key]` when the key is present (`none`
models a `KeyError`). -/
def dlookup {κ ν : Type} [DecidableEq κ] : Dict κ ν → κ → Option ν
  | [], _ => none
  | kv :: rest, key => if kv.1 = key then some kv.2 else dlookup rest key

/-- `if key in d: d[key] += 1 else: d[key] = 1` — update in place, or append
a fresh key with count 1. -/
def incr {κ : Type} [DecidableEq κ] : Dict κ ℕ → κ → Dict κ ℕ
  | [], key => [(key, 1)]
  | kv :: rest, key =>
      if kv.1 = key then (kv.1, kv.2 + 1) :: rest else kv :: incr rest key

/-- Increment once for every key occurrence in `ks`, in order. -/
def bumpAll {κ : Type} [DecidableEq κ] (d : Dict κ ℕ) (ks : List κ) : Dict κ ℕ :=
  ks.foldl incr d

/-- A counting scan: fold over the rows, and in each row bump every key that
`keysOf` extracts from it.  Both the level-1 counter and the level-`k`
candidate generator are instances of this shape. -/
def countTable {ρ κ : Type} [DecidableEq κ] (rows : List ρ) (keysOf : ρ → List κ) : Dict κ ℕ :=
  rows.foldl (fun d r => bumpAll d (keysOf r)) []

/-- The keys of a dictionary, in insertion order. -/
def dkeys {κ ν : Type} (d : Dict κ ν) : List κ := d.map Prod.fst

section DictLemmas

variable {κ ν : Type} [DecidableEq κ]

theorem dlookup_nil (key : κ) : dlookup ([] : Dict κ ν) key = none := rfl

theorem dlookup_cons (kv : κ × ν) (d : Dict κ ν) (key : κ) :
    dlookup (kv :: d) key = if kv.1 = key then some kv.2 else dlookup d key := rfl

theorem dlookup_incr (d : Dict κ ℕ) (key key' : κ) :
    dlookup (incr d key) key' =
      if key = key' then some ((dlookup d key').getD 0 + 1) else dlookup d key' := by
  induction d with
  | nil =>
      by_cases h : key = key' <;> simp [incr, dlookup, h]
  | cons kv rest ih =>
      by_cases hk : kv.1 = key
      · by_cases h : key = key' <;>
          simp [incr, dlookup, hk, h, hk.symm ▸ h]
      · by_cases h : kv.1 = key'
        · have hne : ¬ key = key' := fun e => hk (e ▸ h)
          have hne' : ¬ key' = key := fun e => hne e.symm
          simp [incr, dlookup, hk, h, hne, hne']
        · simp [incr, dlookup, hk, h, ih]

theorem dlookup_bumpAll (d : Dict κ ℕ) (ks : List κ) (key : κ) :
    dlookup (bumpAll d ks) key =
      if ks.count key = 0 then dlookup d key
      else some ((dlookup d key).getD 0 + ks.count key) := by
  induction ks generalizing d with
  | nil => simp [bumpAll]
  | cons k ks ih =>
      have step : bumpAll d (k :: ks) = bumpAll (incr d k) ks := rfl
      rw [step, ih, dlookup_incr]
      by_cases hk : k = key
      · subst hk
        have hcc : (k :: ks).count k = ks.count k + 1 := by
          simp [List.count_cons]
        rw [hcc]
        cases hx : dlookup d k
        all_goals split_ifs <;> (try simp_all) <;> try omega
      · have hcc : (k :: ks).count key = ks.count key := by
          simp [List.count_cons, hk]
        rw [hcc, if_neg hk]

theorem dlookup_countTable {ρ : Type} (rows : List ρ) (keysOf : ρ → List κ) (key : κ) :
    dlookup (countTable rows keysOf) key =
      if (rows.map fun r => (keysOf r).count key).sum = 0 then none
      else some (rows.map fun r => (keysOf r).count key).sum := by
  suffices h : ∀ d : Dict κ ℕ,
      dlookup (rows.foldl (fun d r => bumpAll d (keysOf r)) d) key =
        if (rows.map fun r => (keysOf r).count key).sum = 0 then dlookup d key
        else some ((dlookup d key).getD 0 + (rows.map fun r => (keysOf r).count key).sum) by
    rw [countTable, h]
    simp [dlookup_nil]
  induction rows with
  | nil => intro d; simp [List.foldl]
  | cons r rows ih =>
      intro d
      have step : (r :: rows).foldl (fun d r => bumpAll d (keysOf r)) d =
          rows.foldl (fun d r => bumpAll d (keysOf r)) (bumpAll d (keysOf r)) := rfl
      rw [step, ih, dlookup_bumpAll]
      have hcc : ((r :: rows).map fun r => (keysOf r).count key).sum =
          (keysOf r).count key + (rows.map fun r => (keysOf r).count key).sum := by
        simp
      rw [hcc]
      cases hx : dlookup d key
      all_goals split_ifs <;> (try simp_all) <;> omega

theorem dlookup_countTable_pos {ρ : Type} (rows : List ρ) (keysOf : ρ → List κ)
    (key : κ) (n : ℕ) (h : dlookup (countTable rows keysOf) key = some n) : 1 ≤ n := by
  rw [dlookup_countTable] at h
  by_cases h0 : (rows.map fun r => (keysOf r).count key).sum = 0
  · rw [if_pos h0] at h
    cases h
  · rw [if_neg h0] at h
    have he : (rows.map fun r => (keysOf r).count key).sum = n := by
      injection h
    omega

end DictLemmas

section DictMore

variable {κ ν : Type} [DecidableEq κ]

theorem mem_of_dlookup_eq_some {d : Dict κ ν} {key : κ} {v : ν}
    (h : dlookup d key = some v) : (key, v) ∈ d := by
  induction d with
  | nil => cases h
  | cons kv rest ih =>
      rw [dlookup_cons] at h
      by_cases hk : kv.1 = key
      · rw [if_pos hk] at h
        have : kv = (key, v) := by
          cases kv
          cases h
          simp_all
        simp [this]
      · rw [if_neg hk] at h
        exact List.mem_cons_of_mem _ (ih h)

theorem dlookup_isSome_of_mem {d : Dict κ ν} {key : κ} {v : ν}
    (h : (key, v) ∈ d) : ∃ w, dlookup d key = some w := by
  induction d with
  | nil => cases h
  | cons kv rest ih =>
      rw [dlookup_cons]
      by_cases hk : kv.1 = key
      · exact ⟨kv.2, by rw [if_pos hk]⟩
      · rcases List.mem_cons.mp h with h1 | h1
        · exact absurd (by rw [← h1]) hk
        · rw [if_neg hk]
          exact ih h1

theorem dlookup_eq_none_iff {d : Dict κ ν} {key : κ} :
    dlookup d key = none ↔ key ∉ dkeys d := by
  induction d with
  | nil => simp [dlookup, dkeys]
  | cons kv rest ih =>
      rw [dlookup_cons]
      by_cases hk : kv.1 = key
      · simp [hk, dkeys]
      · rw [if_neg hk, ih]
        constructor
        · intro h hm
          rcases (by simpa [dkeys] using hm : key = kv.1 ∨ key ∈ dkeys rest) with h1 | h1
          · exact hk h1.symm
          · exact h h1
        · intro h hm
          exact h (List.mem_cons_of_mem kv.1 hm : key ∈ kv.1 :: dkeys rest)

theorem dlookup_eq_some_of_mem {d : Dict κ ν} {key : κ} {v : ν} :
    (dkeys d).Nodup → (key, v) ∈ d → dlookup d key = some v := by
  induction d with
  | nil => intro _ hm; cases hm
  | cons kv rest ih =>
      intro hnd hm
      have hnd2 : (kv.1 :: dkeys rest).Nodup := hnd
      have hnotin : kv.1 ∉ dkeys rest := (List.nodup_cons.mp hnd2).1
      have hnd' : (dkeys rest).Nodup := (List.nodup_cons.mp hnd2).2
      rcases List.mem_cons.mp hm with h1 | h1
      · rw [← h1, dlookup_cons]
        simp
      · have hk : kv.1 ≠ key := by
          intro he
          apply hnotin
          rw [he]
          exact List.mem_map_of_mem Prod.fst h1
        rw [dlookup_cons, if_neg hk]
        exact ih hnd' h1

theorem dlookup_eq_some_iff_mem {d : Dict κ ν} (hnd : (dkeys d).Nodup) {key : κ} {v : ν} :
    dlookup d key = some v ↔ (key, v) ∈ d :=
  ⟨mem_of_dlookup_eq_some, dlookup_eq_some_of_mem hnd⟩

theorem mem_dkeys_incr {d : Dict κ ℕ} {key key' : κ} :
    key' ∈ dkeys (incr d key) ↔ key' ∈ dkeys d ∨ key' = key := by
  induction d with
  | nil => simp [incr, dkeys]
  | cons kv rest ih =>
      by_cases hk : kv.1 = key
      · subst hk
        simp only [incr, if_pos rfl]
        simp [dkeys]
        tauto
      · have he : incr (kv :: rest) key = kv :: incr rest key := by
          simp [incr, hk]
        rw [he]
        have h1 : key' ∈ dkeys (kv :: incr rest key) ↔
            key' = kv.1 ∨ key' ∈ dkeys (incr rest key) := by
          simp [dkeys]
        have h2 : key' ∈ dkeys (kv :: rest) ↔ key' = kv.1 ∨ key' ∈ dkeys rest := by
          simp [dkeys]
        rw [h1, h2, ih]
        tauto

theorem dkeys_nodup_incr {d : Dict κ ℕ} (key : κ) :
    (dkeys d).Nodup → (dkeys (incr d key)).Nodup := by
  induction d with
  | nil =>
      intro _
      simp [incr, dkeys]
  | cons kv rest ih =>
      intro hnd
      have hnd2 : (kv.1 :: dkeys rest).Nodup := hnd
      have hnotin : kv.1 ∉ dkeys rest := (List.nodup_cons.mp hnd2).1
      have hnd' : (dkeys rest).Nodup := (List.nodup_cons.mp hnd2).2
      by_cases hk : kv.1 = key
      · have he : incr (kv :: rest) key = (kv.1, kv.2 + 1) :: rest := by
          simp [incr, hk]
        rw [he]
        exact hnd2
      · have he : incr (kv :: rest) key = kv :: incr rest key := by
          simp [incr, hk]
        rw [he]
        have : (kv.1 :: dkeys (incr rest key)).Nodup := by
          rw [List.nodup_cons]
          refine ⟨?_, ih hnd'⟩
          intro hmem
          rcases mem_dkeys_incr.mp hmem with h1 | h1
          · exact hnotin h1
          · exact hk h1
        exact this

theorem dkeys_nodup_bumpAll {d : Dict κ ℕ} (h : (dkeys d).Nodup) (ks : List κ) :
    (dkeys (bumpAll d ks)).Nodup := by
  induction ks generalizing d with
  | nil => exact h
  | cons k ks ih => exact ih (dkeys_nodup_incr k h)

theorem dkeys_nodup_countTable {ρ : Type} (rows : List ρ) (keysOf : ρ → List κ) :
    (dkeys (countTable rows keysOf)).Nodup := by
  suffices h : ∀ d : Dict κ ℕ, (dkeys d).Nodup →
      (dkeys (rows.foldl (fun d r => bumpAll d (keysOf r)) d)).Nodup from
    h [] (by simp [dkeys])
  induction rows with
  | nil => intro d hd; exact hd
  | cons r rows ih =>
      intro d hd
      exact ih _ (dkeys_nodup_bumpAll hd _)

/-- Python's `{**a, **b}`: `a`'s keys in `a`'s insertion order (with `b`'s
value where a key is in both), then `b`'s remaining keys in `b`'s order. -/
def dictMerge {κ ν : Type} [DecidableEq κ] (a b : Dict κ ν) : Dict κ ν :=
  a.map (fun kv => (kv.1, (dlookup b kv.1).getD kv.2)) ++
    b.filter (fun kv => (dlookup a kv.1).isNone)

section MergeLemmas

variable {κ ν ν' : Type} [DecidableEq κ]

theorem dlookup_append_of_some {a : Dict κ ν} {key : κ} {v : ν}
    (h : dlookup a key = some v) (b : Dict κ ν) : dlookup (a ++ b) key = some v := by
  induction a with
  | nil => cases h
  | cons kv rest ih =>
      rw [dlookup_cons] at h
      rw [List.cons_append, dlookup_cons]
      by_cases hk : kv.1 = key
      · rwa [if_pos hk] at h ⊢
      · rw [if_neg hk] at h ⊢
        exact ih h

theorem dlookup_append_of_none {a : Dict κ ν} {key : κ}
    (h : dlookup a key = none) (b : Dict κ ν) : dlookup (a ++ b) key = dlookup b key := by
  induction a with
  | nil => rfl
  | cons kv rest ih =>
      rw [dlookup_cons] at h
      rw [List.cons_append, dlookup_cons]
      by_cases hk : kv.1 = key
      · rw [if_pos hk] at h
        cases h
      · rw [if_neg hk] at h ⊢
        exact ih h

theorem dlookup_map_keyed (g : κ → ν → ν') (a : Dict κ ν) (key : κ) :
    dlookup (a.map (fun kv => (kv.1, g kv.1 kv.2))) key = (dlookup a key).map (g key) := by
  induction a with
  | nil => rfl
  | cons kv rest ih =>
      rw [List.map_cons, dlookup_cons, dlookup_cons]
      by_cases hk : kv.1 = key
      · rw [if_pos hk, if_pos hk, hk]
        rfl
      · rw [if_neg hk, if_neg hk]
        exact ih

theorem dlookup_filter_of_true {p : κ × ν → Bool} {key : κ}
    (hp : ∀ v, p (key, v) = true) (b : Dict κ ν) :
    dlookup (b.filter p) key = dlookup b key := by
  induction b with
  | nil => rfl
  | cons kv rest ih =>
      by_cases hk : kv.1 = key
      · have hkv : kv = (key, kv.2) := by
          cases kv
          simp_all
        have hpkv : p kv = true := by
          rw [hkv]
          exact hp kv.2
        rw [List.filter_cons_of_pos hpkv, dlookup_cons, dlookup_cons, if_pos hk, if_pos hk]
      · cases hpv : p kv
        · rw [List.filter_cons_of_neg (by simp [hpv]), dlookup_cons, if_neg hk]
          exact ih
        · rw [List.filter_cons_of_pos hpv, dlookup_cons, dlookup_cons, if_neg hk, if_neg hk]
          exact ih

theorem dlookup_dictMerge (a b : Dict κ ν) (key : κ) :
    dlookup (dictMerge a b) key =
      match dlookup a key with
      | some v => some ((dlookup b key).getD v)
      | none => dlookup b key := by
  cases ha : dlookup a key with
  | some v =>
      show dlookup (dictMerge a b) key = some ((dlookup b key).getD v)
      have hmap : dlookup (a.map (fun kv => (kv.1, (dlookup b kv.1).getD kv.2))) key
          = some ((dlookup b key).getD v) := by
        rw [dlookup_map_keyed (fun k w => (dlookup b k).getD w) a key, ha]
        rfl
      exact dlookup_append_of_some hmap _
  | none =>
      show dlookup (dictMerge a b) key = dlookup b key
      have hmap : dlookup (a.map (fun kv => (kv.1, (dlookup b kv.1).getD kv.2))) key
          = none := by
        rw [dlookup_map_keyed (fun k w => (dlookup b k).getD w) a key, ha]
        rfl
      unfold dictMerge
      rw [dlookup_append_of_none hmap]
      exact dlookup_filter_of_true (fun v => by simp [ha]) b

theorem dlookup_dictMerge_of_right {a b : Dict κ ν} {key : κ} {v : ν}
    (h : dlookup b key = some v) : dlookup (dictMerge a b) key = some v := by
  rw [dlookup_dictMerge]
  cases ha : dlookup a key <;> simp [h]

theorem dlookup_dictMerge_of_none_right {a b : Dict κ ν} {key : κ}
    (h : dlookup b key = none) : dlookup (dictMerge a b) key = dlookup a key := by
  rw [dlookup_dictMerge]
  cases ha : dlookup a key <;> simp [h]

theorem dlookup_dictMerge_inv {a b : Dict κ ν} {key : κ} {v : ν}
    (h : dlookup (dictMerge a b) key = some v) :
    dlookup b key = some v ∨ (dlookup b key = none ∧ dlookup a key = some v) := by
  rw [dlookup_dictMerge] at h
  cases ha : dlookup a key <;> rw [ha] at h
  · exact Or.inl h
  · cases hb : dlookup b key <;> rw [hb] at h <;> simp at h
    · exact Or.inr ⟨rfl, by rw [h]⟩
    · exact Or.inl (by rw [h])

theorem dictMerge_nil (d : Dict κ ν) : dictMerge d [] = d := by
  unfold dictMerge
  simp [dlookup_nil]

theorem dkeys_dictMerge (a b : Dict κ ν) :
    dkeys (dictMerge a b) =
      dkeys a ++ dkeys (b.filter (fun kv => (dlookup a kv.1).isNone)) := by
  unfold dictMerge dkeys
  rw [List.map_append, List.map_map]
  congr 1

theorem dkeys_nodup_dictMerge {a b : Dict κ ν}
    (ha : (dkeys a).Nodup) (hb : (dkeys b).Nodup) : (dkeys (dictMerge a b)).Nodup := by
  rw [dkeys_dictMerge, List.nodup_append]
  refine ⟨ha, ?_, ?_⟩
  · have hsub : List.Sublist (b.filter (fun kv => (dlookup a kv.1).isNone)) b :=
      List.filter_sublist _
    exact hb.sublist (hsub.map Prod.fst)
  · intro key hka hkb
    rcases List.mem_map.mp hkb with ⟨kv, hkvmem, hkvfst⟩
    have hp := (List.mem_filter.mp hkvmem).2
    have : dlookup a kv.1 = none := by
      cases hx : dlookup a kv.1
      · rfl
      · rw [hx] at hp
        simp at hp
    have : key ∉ dkeys a := dlookup_eq_none_iff.mp (hkvfst ▸ this)
    exact this hka

theorem dkeys_perm_nodup {a b : Dict κ ν} (hp : a.Perm b) (ha : (dkeys a).Nodup) :
    (dkeys b).Nodup :=
  ((hp.map Prod.fst).nodup_iff).mp ha

theorem dlookup_eq_of_perm {a b : Dict κ ν} (ha : (dkeys a).Nodup) (hp : a.Perm b)
    (key : κ) : dlookup a key = dlookup b key := by
  have hb : (dkeys b).Nodup := dkeys_perm_nodup hp ha
  cases hx : dlookup a key with
  | some v =>
      have : (key, v) ∈ b := hp.mem_iff.mp (mem_of_dlookup_eq_some hx)
      exact (dlookup_eq_some_of_mem hb this).symm
  | none =>
      have h1 : key ∉ dkeys a := dlookup_eq_none_iff.mp hx
      have h2 : key ∉ dkeys b := fun hm => h1 (((hp.map Prod.fst).mem_iff).mpr hm)
      exact (dlookup_eq_none_iff.mpr h2).symm

theorem perm_of_dlookup_eq {a b : Dict κ ν} (ha : (dkeys a).Nodup) (hb : (dkeys b).Nodup)
    (h : ∀ key, dlookup a key = dlookup b key) : a.Perm b := by
  have hae : a.Nodup := ha.of_map Prod.fst
  have hbe : b.Nodup := hb.of_map Prod.fst
  apply (List.perm_ext_iff_of_nodup hae hbe).mpr
  intro kv
  cases kv with
  | mk key v =>
      constructor
      · intro hm
        exact mem_of_dlookup_eq_some ((h key) ▸ dlookup_eq_some_of_mem ha hm)
      · intro hm
        exact mem_of_dlookup_eq_some ((h key).symm ▸ dlookup_eq_some_of_mem hb hm)

end MergeLemmas

/-! ## Embedding of `find_itemsets_rules.py`

Items live in a linearly ordered type `α` (tokens in the source).  Reading
the dataset file is the external Corpus provider's job; its in-memory
result is the list of raw rows (`List (List α)`, possibly with repeated
items inside a row).  All core functions below mirror the Python source
line by line; the enumeration order of `itertools.combinations` is
modelled by `List.sublistsLen`, which produces the same combinations
(possibly in a different list order — no claim depends on that order). -/

section Embedding

variable {α : Type} [LinearOrder α]

/-- `generate_all_single_candidates`: one scan over the rows, counting every
element occurrence of every row into `c_1` and materialising each row as a
basket (Python `set`).  Mirrors the `for row in f: for item in row_list: …;
all_baskets.append(set(row_list))` loop. -/
def generate_all_single_candidates (rows : List (List α)) :
    Dict (Key α) ℕ × List (Finset α) :=
  rows.foldl
    (fun acc row => (bumpAll acc.1 (row.map Key.single), acc.2 ++ [row.toFinset]))
    ([], [])

theorem generate_all_single_candidates_eq (rows : List (List α)) :
    generate_all_single_candidates rows =
      (countTable rows (fun r => r.map Key.single), rows.map List.toFinset) := by
  suffices h : ∀ (d : Dict (Key α) ℕ) (l : List (Finset α)),
      rows.foldl
        (fun acc row => (bumpAll acc.1 (row.map Key.single), acc.2 ++ [row.toFinset]))
        (d, l) =
      (rows.foldl (fun d r => bumpAll d (r.map Key.single)) d,
        l ++ rows.map List.toFinset) by
    rw [generate_all_single_candidates, h, countTable]
    simp
  induction rows with
  | nil => intro d l; simp
  | cons r rows ih =>
      intro d l
      have step : (r :: rows).foldl
          (fun acc row => (bumpAll acc.1 (row.map Key.single), acc.2 ++ [row.toFinset]))
          (d, l) =
          rows.foldl
            (fun acc row => (bumpAll acc.1 (row.map Key.single), acc.2 ++ [row.toFinset]))
            (bumpAll d (r.map Key.single), l ++ [r.toFinset]) := rfl
      rw [step, ih]
      simp

/-- `filter_candidates`: keep the (itemset, count) pairs whose count is
strictly greater than the support threshold (a plain Python `int`, so the
threshold is an arbitrary integer while counts are naturals). -/
def filter_candidates {κ : Type} [DecidableEq κ] (c_k : Dict κ ℕ) (support : ℤ) :
    Dict κ ℕ :=
  c_k.filter (fun kv => decide (support < (kv.2 : ℤ)))

/-- The set of bare items appearing as keys of `l_1` (`set(l_1.keys())`
intersected with baskets of items: tuple keys can never meet a basket of
items, so only `Key.single` keys survive any such intersection). -/
def l1ItemSet (l_1 : Dict (Key α) ℕ) : Finset α :=
  (l_1.filterMap (fun kv =>
    match kv.1 with
    | Key.single a => some a
    | Key.tuple _ => none)).toFinset

/-- The ascending enumeration of a `Finset` (Python's `sorted(list(s))`),
computed by insertion sort so that it evaluates by kernel reduction.  Any
two sorted enumerations of permuted lists coincide, so this lifts to the
multiset quotient. -/
def sortedList (s : Finset α) : List α :=
  Quot.liftOn s.val (fun l => List.insertionSort (· ≤ ·) l)
    (fun a b h =>
      List.eq_of_perm_of_sorted
        (((List.perm_insertionSort (· ≤ ·) a).trans h).trans
          (List.perm_insertionSort (· ≤ ·) b).symm)
        (List.sorted_insertionSort (· ≤ ·) a)
        (List.sorted_insertionSort (· ≤ ·) b))

theorem sortedList_sorted (s : Finset α) : (sortedList s).Sorted (· ≤ ·) := by
  rcases s with ⟨m, hm⟩
  induction m using Quotient.inductionOn with
  | h l => exact List.sorted_insertionSort (· ≤ ·) l

theorem sortedList_perm (s : Finset α) : (sortedList s : Multiset α) = s.val := by
  rcases s with ⟨m, hm⟩
  induction m using Quotient.inductionOn with
  | h l =>
      show ((List.insertionSort (· ≤ ·) l : List α) : Multiset α) = (l : Multiset α)
      exact Quot.sound (List.perm_insertionSort (· ≤ ·) l)

theorem mem_sortedList {s : Finset α} {a : α} : a ∈ sortedList s ↔ a ∈ s := by
  have h : a ∈ (sortedList s : Multiset α) ↔ a ∈ s.val := by
    rw [sortedList_perm]
  simpa using h

theorem sortedList_nodup (s : Finset α) : (sortedList s).Nodup := by
  have h : ((sortedList s : Multiset α)).Nodup := by
    rw [sortedList_perm]
    exact s.nodup
  simpa using h

theorem sortedList_sorted_lt (s : Finset α) : (sortedList s).Sorted (· < ·) :=
  (sortedList_sorted s).lt_of_le (sortedList_nodup s)

theorem length_sortedList (s : Finset α) : (sortedList s).length = s.card := by
  have h : Multiset.card (sortedList s : Multiset α) = Multiset.card s.val := by
    rw [sortedList_perm]
  rw [Multiset.coe_card] at h
  exact h

/-- `sorted(list(l_1_set & basket))`: the canonical ascending enumeration of
the basket's level-1-frequent items. -/
def sortInter (l1set basket : Finset α) : List α :=
  sortedList (l1set ∩ basket)

/-- The per-basket candidate keys of `generate_next_candidates`: all length-`k`
combinations of the sorted frequent items of the basket, kept only when the
combination is a subset of the basket (the source's `issubset` check). -/
def candKeys (l1set : Finset α) (k : ℕ) (basket : Finset α) : List (Key α) :=
  ((List.sublistsLen k (sortInter l1set basket)).filter
    (fun t => decide (t.toFinset ⊆ basket))).map Key.tuple

/-- `generate_next_candidates`: scan all baskets, counting each surviving
length-`k` combination once per basket that produces it. -/
def generate_next_candidates (all_baskets : List (Finset α)) (l_1 : Dict (Key α) ℕ)
    (k : ℕ) : Dict (Key α) ℕ :=
  countTable all_baskets (candKeys (l1ItemSet l_1) k)

/-- The variant of the generator with the redundant `issubset` check removed
(claim C8's refinement target). -/
def candKeysNoCheck (l1set : Finset α) (k : ℕ) (basket : Finset α) : List (Key α) :=
  (List.sublistsLen k (sortInter l1set basket)).map Key.tuple

/-- `generate_next_candidates` without the `issubset` check. -/
def generate_next_candidates_nocheck (all_baskets : List (Finset α))
    (l_1 : Dict (Key α) ℕ) (k : ℕ) : Dict (Key α) ℕ :=
  countTable all_baskets (candKeysNoCheck (l1ItemSet l_1) k)

/-- Size of the largest basket; the level index can never usefully exceed it. -/
def maxBasketSize (all_baskets : List (Finset α)) : ℕ :=
  (all_baskets.map Finset.card).foldr max 0

/-- The `while len(l_k) != 0` loop of `apriori`, with an explicit fuel
parameter (the loop in the source terminates because levels beyond the
largest basket produce no candidates; the fuel chosen in `apriori` is proved
sufficient below). State: current level `k`, current frequent table `l_k`,
and the two accumulators. -/
def aprioriLoop (all_baskets : List (Finset α)) (support : ℤ) (l_1 : Dict (Key α) ℕ) :
    ℕ → ℕ → Dict (Key α) ℕ → Dict (Key α) ℕ → Dict (Key α) ℕ →
      Dict (Key α) ℕ × Dict (Key α) ℕ
  | 0, _, _, allFreq, above => (allFreq, above)
  | fuel + 1, k, l_k, allFreq, above =>
      if l_k.isEmpty then (allFreq, above)
      else
        let c_k := generate_next_candidates all_baskets l_1 k
        let l_k' := filter_candidates c_k support
        aprioriLoop all_baskets support l_1 fuel (k + 1) l_k'
          (dictMerge allFreq l_k') (dictMerge above l_k')

/-- `apriori`: filter level 1, seed the accumulators, then run the level-wise
loop from `k = 2`. -/
def apriori (all_baskets : List (Finset α)) (support : ℤ) (c_1 : Dict (Key α) ℕ) :
    Dict (Key α) ℕ × Dict (Key α) ℕ :=
  let l_1 := filter_candidates c_1 support
  aprioriLoop all_baskets support l_1 (maxBasketSize all_baskets + 1) 2 l_1 l_1 []

end Embedding

/-! ## Rule miner (`generate_association_rules`)

The Python function may raise a `KeyError` on an antecedent lookup; the
embedding therefore returns an `Option`, `none` modelling the exception.
It is proved below that on pipeline-produced input the lookups always
succeed. -/

/-- An emitted association rule
`(curr_item, "->", remaining_items, support, conf)`; the literal `"->"`
marker carries no data.  Confidence is the exact rational
`support / antecedent_support` (Python computes it in floating point;
all claims speak about the exact value). -/
structure Rule (α : Type) where
  antecedent : Finset α
  consequent : Finset α
  support : ℕ
  conf : ℚ
deriving DecidableEq

/-- The item sequence of a key.  In the pipeline the rule miner's outer loop
only ever sees `Key.tuple` keys (proved below); a `Key.single` key is read
as its one-element sequence. -/
def keyItems {α : Type} : Key α → List α
  | Key.single a => [a]
  | Key.tuple t => t

/-- The lookup key for an antecedent: the bare item for a one-element
antecedent (`item[0]`), the tuple otherwise (`len(item) > 1`).  The
empty list never arises (`i` ranges from 1). -/
def antKey {α : Type} : List α → Key α
  | [a] => Key.single a
  | t => Key.tuple t

/-- All candidate antecedents of a frequent itemset, `for i in
range(1, len(X)): combinations(X, i)`. -/
def antecedents {α : Type} (X : List α) : List (List α) :=
  (List.range' 1 (X.length - 1)).flatMap (fun i => List.sublistsLen i X)

/-- Sequence a list of fallible computations, failing on the first `none`
(the Python exception aborting the whole call). -/
def omapM {β γ : Type} (f : β → Option γ) : List β → Option (List γ)
  | [] => some []
  | x :: xs =>
      match f x, omapM f xs with
      | some y, some ys => some (y :: ys)
      | _, _ => none

/-- One candidate rule: look up the antecedent's support (`KeyError` as
`none`), and form `(curr_item, remaining_items, support, conf)`. -/
def ruleOf {α : Type} [LinearOrder α] (allFreq : Dict (Key α) ℕ) (X : List α)
    (supp : ℕ) (A : List α) : Option (Rule α) :=
  (dlookup allFreq (antKey A)).map (fun m =>
    { antecedent := A.toFinset
      consequent := X.toFinset \ A.toFinset
      support := supp
      conf := (supp : ℚ) / (m : ℚ) })

/-- All rules derived from one frequent itemset, keeping those with
confidence strictly above the threshold. -/
def rulesForItemset {α : Type} [LinearOrder α] (allFreq : Dict (Key α) ℕ) (θ : ℚ)
    (X : List α) (supp : ℕ) : Option (List (Rule α)) :=
  (omapM (ruleOf allFreq X supp) (antecedents X)).map
    (List.filter (fun r => decide (θ < r.conf)))

/-- `generate_association_rules`: iterate the size-`≥ 2` frequent itemsets and
collect every rule whose confidence strictly exceeds the threshold. -/
def generate_association_rules {α : Type} [LinearOrder α]
    (all_frequent_itemsets all_itemsets_greater_than_1 : Dict (Key α) ℕ)
    (conf_threshold : ℚ) : Option (List (Rule α)) :=
  (omapM (fun kv => rulesForItemset all_frequent_itemsets conf_threshold
      (keyItems kv.1) kv.2) all_itemsets_greater_than_1).map List.flatten

/-- Every candidate rule, before the confidence filter (the rules a
threshold `≤ 0` lets through). -/
def allCandidateRules {α : Type} [LinearOrder α]
    (allFreq above : Dict (Key α) ℕ) : Option (List (Rule α)) :=
  (omapM (fun kv => omapM (ruleOf allFreq (keyItems kv.1) kv.2)
      (antecedents (keyItems kv.1))) above).map List.flatten

section OmapM

variable {β γ δ : Type}

theorem omapM_eq_some_of_forall {f : β → Option γ} {g : β → γ} {l : List β}
    (h : ∀ x ∈ l, f x = some (g x)) : omapM f l = some (l.map g) := by
  induction l with
  | nil => rfl
  | cons x xs ih =>
      have hx : f x = some (g x) := h x (List.mem_cons_self x xs)
      have hxs : omapM f xs = some (xs.map g) :=
        ih (fun y hy => h y (List.mem_cons_of_mem x hy))
      show (match f x, omapM f xs with
        | some y, some ys => some (y :: ys)
        | _, _ => none) = some ((x :: xs).map g)
      rw [hx, hxs]
      rfl

theorem omapM_isSome {f : β → Option γ} {l : List β} {ys : List γ}
    (h : omapM f l = some ys) : ∀ x ∈ l, ∃ y, f x = some y := by
  induction l generalizing ys with
  | nil => intro x hx; cases hx
  | cons x xs ih =>
      intro z hz
      have hm : (match f x, omapM f xs with
          | some y, some ys => some (y :: ys)
          | _, _ => none) = some ys := h
      cases hfx : f x with
      | none => rw [hfx] at hm; cases hm
      | some y =>
          cases hrest : omapM f xs with
          | none => rw [hfx, hrest] at hm; cases hm
          | some ys' =>
              rcases List.mem_cons.mp hz with h1 | h1
              · exact ⟨y, h1 ▸ hfx⟩
              · exact ih hrest z h1

theorem mem_omapM {f : β → Option γ} {l : List β} {ys : List γ}
    (h : omapM f l = some ys) {y : γ} : y ∈ ys ↔ ∃ x ∈ l, f x = some y := by
  induction l generalizing ys with
  | nil =>
      cases h
      simp
  | cons x xs ih =>
      have hm : (match f x, omapM f xs with
          | some y, some ys => some (y :: ys)
          | _, _ => none) = some ys := h
      cases hfx : f x with
      | none => rw [hfx] at hm; cases hm
      | some y' =>
          cases hrest : omapM f xs with
          | none => rw [hfx, hrest] at hm; cases hm
          | some ys' =>
              rw [hfx, hrest] at hm
              cases hm
              constructor
              · intro hy
                rcases List.mem_cons.mp hy with h1 | h1
                · exact ⟨x, List.mem_cons_self x xs, h1 ▸ hfx⟩
                · rcases (ih hrest).mp h1 with ⟨x', hx', hfx'⟩
                  exact ⟨x', List.mem_cons_of_mem x hx', hfx'⟩
              · rintro ⟨x', hx', hfx'⟩
                rcases List.mem_cons.mp hx' with h1 | h1
                · subst h1
                  rw [hfx] at hfx'
                  injection hfx' with he
                  subst he
                  exact List.mem_cons_self _ _
                · exact List.mem_cons_of_mem _ ((ih hrest).mpr ⟨x', h1, hfx'⟩)

end OmapM

section MoreHelpers

variable {β γ δ ρ : Type}

theorem omapM_map_post (f : β → Option γ) (h : γ → δ) (l : List β) :
    omapM (fun x => (f x).map h) l = (omapM f l).map (List.map h) := by
  induction l with
  | nil => rfl
  | cons x xs ih =>
      have hl : omapM (fun x => (f x).map h) (x :: xs) =
          (match (f x).map h, omapM (fun x => (f x).map h) xs with
           | some y, some ys => some (y :: ys)
           | _, _ => none) := rfl
      have hr : omapM f (x :: xs) =
          (match f x, omapM f xs with
           | some y, some ys => some (y :: ys)
           | _, _ => none) := rfl
      rw [hl, hr, ih]
      cases hfx : f x <;> cases hrest : omapM f xs <;> rfl

theorem sum_map_ite_eq_countP (p : ρ → Bool) (l : List ρ) :
    (l.map (fun b => if p b then 1 else 0)).sum = l.countP p := by
  induction l with
  | nil => rfl
  | cons r l ih =>
      rw [List.map_cons, List.sum_cons, ih, List.countP_cons]
      cases hp : p r <;> simp [hp] <;> omega

theorem countP_le_countP_of_imp {p q : ρ → Bool} {l : List ρ}
    (h : ∀ b ∈ l, p b = true → q b = true) : l.countP p ≤ l.countP q := by
  induction l with
  | nil => exact le_refl _
  | cons r l ih =>
      rw [List.countP_cons, List.countP_cons]
      have hr := h r (List.mem_cons_self r l)
      have hl : l.countP p ≤ l.countP q :=
        ih (fun b hb => h b (List.mem_cons_of_mem r hb))
      cases hp : p r
      · cases hq : q r <;> simp [hq] <;> omega
      · rw [hr hp]
        simp
        omega

theorem countP_le_sum_map {l : List ρ} {p : ρ → Bool} {f : ρ → ℕ}
    (h : ∀ b ∈ l, p b = true → 1 ≤ f b) : l.countP p ≤ (l.map f).sum := by
  induction l with
  | nil => exact le_refl _
  | cons r l ih =>
      rw [List.countP_cons, List.map_cons, List.sum_cons]
      have hl := ih (fun b hb => h b (List.mem_cons_of_mem r hb))
      cases hp : p r
      · simp
        omega
      · have := h r (List.mem_cons_self r l) hp
        simp
        omega

/-- A strictly ascending list whose members all lie in a strictly ascending
list is a sublist of it. -/
theorem sublist_of_sorted_lt_subset {α : Type} [LinearOrder α] :
    ∀ {t s : List α}, t.Sorted (· < ·) → s.Sorted (· < ·) →
      (∀ a ∈ t, a ∈ s) → List.Sublist t s := by
  intro t s
  induction s generalizing t with
  | nil =>
      intro _ _ hsub
      cases t with
      | nil => exact List.Sublist.refl []
      | cons a t' => exact absurd (hsub a (List.mem_cons_self a t')) (by simp)
  | cons b s' ih =>
      intro ht hs hsub
      cases t with
      | nil => exact List.nil_sublist _
      | cons a t' =>
          have ht' : t'.Sorted (· < ·) := ht.of_cons
          have hs' : s'.Sorted (· < ·) := hs.of_cons
          have hbs' : ∀ y ∈ s', b < y := fun y hy => (List.sorted_cons.mp hs).1 y hy
          have hat' : ∀ y ∈ t', a < y := fun y hy => (List.sorted_cons.mp ht).1 y hy
          by_cases hab : a = b
          · subst hab
            have hsub' : ∀ y ∈ t', y ∈ s' := by
              intro y hy
              have hmem : y ∈ a :: s' := hsub y (List.mem_cons_of_mem a hy)
              rcases List.mem_cons.mp hmem with h1 | h1
              · exact absurd (h1 ▸ hat' y hy) (lt_irrefl y)
              · exact h1
            exact List.Sublist.cons₂ a (ih ht' hs' hsub')
          · have hsub' : ∀ y ∈ a :: t', y ∈ s' := by
              intro y hy
              have hmem : y ∈ b :: s' := hsub y hy
              rcases List.mem_cons.mp hmem with h1 | h1
              · have has : a ∈ b :: s' := hsub a (List.mem_cons_self a t')
                rcases List.mem_cons.mp has with h2 | h2
                · exact absurd h2 hab
                · have hba : b < a := hbs' a h2
                  rcases List.mem_cons.mp hy with h3 | h3
                  · exact absurd (h3.symm.trans h1) hab
                  · have hby : b < y := lt_trans hba (hat' y h3)
                    have hbb : b < b := h1 ▸ hby
                    exact absurd hbb (lt_irrefl b)
              · exact h1
            exact List.Sublist.cons b (ih ht hs' hsub')

end MoreHelpers

section GenChar

variable {α : Type} [LinearOrder α]

theorem sortInter_sorted_lt (l1set basket : Finset α) :
    (sortInter l1set basket).Sorted (· < ·) :=
  sortedList_sorted_lt _

theorem sortInter_nodup (l1set basket : Finset α) : (sortInter l1set basket).Nodup :=
  sortedList_nodup _

theorem mem_sortInter {l1set basket : Finset α} {a : α} :
    a ∈ sortInter l1set basket ↔ a ∈ l1set ∧ a ∈ basket := by
  rw [sortInter, mem_sortedList, Finset.mem_inter]

theorem sublist_sortInter_iff {l1set basket : Finset α} {t : List α} :
    List.Sublist t (sortInter l1set basket) ↔
      (t.Sorted (· < ·) ∧ ∀ a ∈ t, a ∈ l1set ∧ a ∈ basket) := by
  constructor
  · intro h
    refine ⟨List.Pairwise.sublist h (sortInter_sorted_lt l1set basket), ?_⟩
    intro a ha
    exact mem_sortInter.mp (h.subset ha)
  · rintro ⟨hsort, hmem⟩
    exact sublist_of_sorted_lt_subset hsort (sortInter_sorted_lt l1set basket)
      (fun a ha => mem_sortInter.mpr (hmem a ha))

theorem mem_candKeys {l1set basket : Finset α} {k : ℕ} {t : List α} :
    Key.tuple t ∈ candKeys l1set k basket ↔
      (t.length = k ∧ t.Sorted (· < ·) ∧ ∀ a ∈ t, a ∈ l1set ∧ a ∈ basket) := by
  unfold candKeys
  rw [List.mem_map]
  constructor
  · rintro ⟨t', ht', he⟩
    injection he with he'
    subst he'
    have h1 := List.mem_filter.mp ht'
    have h2 := List.mem_sublistsLen.mp h1.1
    refine ⟨h2.2, List.Pairwise.sublist h2.1 (sortInter_sorted_lt l1set basket), ?_⟩
    intro a ha
    exact mem_sortInter.mp (h2.1.subset ha)
  · rintro ⟨hlen, hsort, hmem⟩
    refine ⟨t, ?_, rfl⟩
    apply List.mem_filter.mpr
    constructor
    · exact List.mem_sublistsLen.mpr
        ⟨sublist_of_sorted_lt_subset hsort (sortInter_sorted_lt l1set basket)
          (fun a ha => mem_sortInter.mpr (hmem a ha)), hlen⟩
    · apply decide_eq_true
      intro a ha
      exact (hmem a (List.mem_toFinset.mp ha)).2

theorem single_not_mem_candKeys {l1set basket : Finset α} {k : ℕ} {a : α} :
    Key.single a ∉ candKeys l1set k basket := by
  unfold candKeys
  intro h
  rcases List.mem_map.mp h with ⟨t', _, he⟩
  cases he

theorem candKeys_nodup (l1set basket : Finset α) (k : ℕ) :
    (candKeys l1set k basket).Nodup := by
  unfold candKeys
  apply List.Nodup.map
  · intro x y he
    injection he
  · exact (List.nodup_sublistsLen k (sortInter_nodup l1set basket)).filter _

theorem count_candKeys (l1set basket : Finset α) (k : ℕ) (t : List α) :
    (candKeys l1set k basket).count (Key.tuple t) =
      if Key.tuple t ∈ candKeys l1set k basket then 1 else 0 := by
  by_cases hm : Key.tuple t ∈ candKeys l1set k basket
  · rw [if_pos hm]
    exact List.count_eq_one_of_mem (candKeys_nodup l1set basket k) hm
  · rw [if_neg hm]
    exact List.count_eq_zero_of_not_mem hm

theorem count_candKeys_single (l1set basket : Finset α) (k : ℕ) (a : α) :
    (candKeys l1set k basket).count (Key.single a) = 0 :=
  List.count_eq_zero_of_not_mem single_not_mem_candKeys

/-- Characterisation of the candidate generator: the table maps exactly the
canonically sorted length-`k` tuples of distinct level-1-frequent items that
occur together in at least one basket to the number of baskets containing
all of their items. -/
theorem dlookup_generate_next_candidates
    (all_baskets : List (Finset α)) (l_1 : Dict (Key α) ℕ) (k : ℕ) (t : List α) (n : ℕ) :
    dlookup (generate_next_candidates all_baskets l_1 k) (Key.tuple t) = some n ↔
      (t.length = k ∧ t.Sorted (· < ·) ∧ (∀ a ∈ t, a ∈ l1ItemSet l_1) ∧
        n = all_baskets.countP (fun b => decide (t.toFinset ⊆ b)) ∧ 0 < n) := by
  unfold generate_next_candidates
  rw [dlookup_countTable]
  by_cases hglob : t.length = k ∧ t.Sorted (· < ·) ∧ ∀ a ∈ t, a ∈ l1ItemSet l_1
  · have hmap : all_baskets.map
        (fun b => (candKeys (l1ItemSet l_1) k b).count (Key.tuple t)) =
        all_baskets.map (fun b => if decide (t.toFinset ⊆ b) then 1 else 0) := by
      apply List.map_congr_left
      intro b _
      rw [count_candKeys]
      by_cases hsub : t.toFinset ⊆ b
      · rw [if_pos (mem_candKeys.mpr ⟨hglob.1, hglob.2.1, fun a ha =>
          ⟨hglob.2.2 a ha, hsub (List.mem_toFinset.mpr ha)⟩⟩)]
        simp [hsub]
      · have : Key.tuple t ∉ candKeys (l1ItemSet l_1) k b := by
          intro hmem
          apply hsub
          intro a ha
          exact ((mem_candKeys.mp hmem).2.2 a (List.mem_toFinset.mp ha)).2
        rw [if_neg this]
        simp [hsub]
    rw [hmap, sum_map_ite_eq_countP]
    by_cases hz : all_baskets.countP (fun b => decide (t.toFinset ⊆ b)) = 0
    · rw [if_pos hz]
      constructor
      · intro h; cases h
      · rintro ⟨_, _, _, hn, hpos⟩
        omega
    · rw [if_neg hz]
      constructor
      · intro h
        injection h with he
        exact ⟨hglob.1, hglob.2.1, hglob.2.2, he.symm, by omega⟩
      · rintro ⟨_, _, _, hn, _⟩
        rw [hn]
  · have hmap : all_baskets.map
        (fun b => (candKeys (l1ItemSet l_1) k b).count (Key.tuple t)) =
        all_baskets.map (fun _ => 0) := by
      apply List.map_congr_left
      intro b _
      rw [count_candKeys]
      apply if_neg
      intro hmem
      rcases mem_candKeys.mp hmem with ⟨h1, h2, h3⟩
      exact hglob ⟨h1, h2, fun a ha => (h3 a ha).1⟩
    rw [hmap]
    simp only [List.map_const']
    constructor
    · intro h
      rw [if_pos (by simp)] at h
      cases h
    · rintro ⟨h1, h2, h3, _⟩
      exact absurd ⟨h1, h2, h3⟩ hglob

theorem dlookup_generate_next_candidates_single
    (all_baskets : List (Finset α)) (l_1 : Dict (Key α) ℕ) (k : ℕ) (a : α) :
    dlookup (generate_next_candidates all_baskets l_1 k) (Key.single a) = none := by
  unfold generate_next_candidates
  rw [dlookup_countTable]
  have hmap : all_baskets.map
      (fun b => (candKeys (l1ItemSet l_1) k b).count (Key.single a)) =
      all_baskets.map (fun _ => 0) := by
    apply List.map_congr_left
    intro b _
    exact count_candKeys_single _ _ _ _
  rw [hmap]
  simp

end GenChar

/-- The value-level effect of the support filter on one lookup result. -/
def filterVal (s : ℤ) : Option ℕ → Option ℕ
  | some n => if s < (n : ℤ) then some n else none
  | none => none

section FilterChar

variable {κ : Type} [DecidableEq κ]

theorem mem_filter_candidates {c : Dict κ ℕ} {s : ℤ} {key : κ} {n : ℕ} :
    (key, n) ∈ filter_candidates c s ↔ (key, n) ∈ c ∧ s < (n : ℤ) := by
  unfold filter_candidates
  rw [List.mem_filter]
  simp

theorem dlookup_filter_none {ν : Type} {p : κ × ν → Bool} {d : Dict κ ν} {key : κ}
    (h : key ∉ dkeys d) : dlookup (d.filter p) key = none := by
  apply dlookup_eq_none_iff.mpr
  intro hm
  exact h (((List.filter_sublist d).map Prod.fst).subset hm)

theorem dlookup_filter_candidates {c : Dict κ ℕ} (hnd : (dkeys c).Nodup)
    (s : ℤ) (key : κ) :
    dlookup (filter_candidates c s) key = filterVal s (dlookup c key) := by
  induction c with
  | nil => rfl
  | cons kv rest ih =>
      have hnd2 : (kv.1 :: dkeys rest).Nodup := hnd
      have hnotin : kv.1 ∉ dkeys rest := (List.nodup_cons.mp hnd2).1
      have hnd' : (dkeys rest).Nodup := (List.nodup_cons.mp hnd2).2
      unfold filter_candidates at ih ⊢
      by_cases hk : kv.1 = key
      · cases hp : decide (s < (kv.2 : ℤ))
        · have hnpred : ¬ s < (kv.2 : ℤ) := of_decide_eq_false hp
          rw [List.filter_cons_of_neg (by simp [hp]), dlookup_filter_none (hk ▸ hnotin),
            dlookup_cons, if_pos hk]
          simp [filterVal, hnpred]
        · have hpred : s < (kv.2 : ℤ) := of_decide_eq_true hp
          have hfc : List.filter (fun kv => decide (s < (kv.2 : ℤ))) (kv :: rest) =
              kv :: List.filter (fun kv => decide (s < (kv.2 : ℤ))) rest := by
            simp [List.filter_cons, hp]
          rw [hfc, dlookup_cons, if_pos hk, dlookup_cons, if_pos hk]
          simp [filterVal, hpred]
      · cases hp : decide (s < (kv.2 : ℤ))
        · rw [List.filter_cons_of_neg (by simp [hp]), dlookup_cons, if_neg hk]
          exact ih hnd'
        · have hfc : List.filter (fun kv => decide (s < (kv.2 : ℤ))) (kv :: rest) =
              kv :: List.filter (fun kv => decide (s < (kv.2 : ℤ))) rest := by
            simp [List.filter_cons, hp]
          rw [hfc, dlookup_cons, if_neg hk, dlookup_cons, if_neg hk]
          exact ih hnd'

theorem dlookup_filter_candidates_some {c : Dict κ ℕ} (hnd : (dkeys c).Nodup)
    {s : ℤ} {key : κ} {n : ℕ} :
    dlookup (filter_candidates c s) key = some n ↔
      dlookup c key = some n ∧ s < (n : ℤ) := by
  rw [dlookup_filter_candidates hnd]
  cases hx : dlookup c key with
  | none => simp [filterVal]
  | some m =>
      by_cases hm : s < (m : ℤ)
      · simp [filterVal, hm]
        intro he
        rw [← he]
        exact hm
      · simp [filterVal, hm]
        intro he
        omega

theorem dkeys_nodup_filter_candidates {c : Dict κ ℕ} (hnd : (dkeys c).Nodup)
    (s : ℤ) : (dkeys (filter_candidates c s)).Nodup :=
  hnd.sublist ((List.filter_sublist c).map Prod.fst)

end FilterChar

theorem mem_l1ItemSet {α : Type} [LinearOrder α] {l_1 : Dict (Key α) ℕ} {a : α} :
    a ∈ l1ItemSet l_1 ↔ ∃ n, (Key.single a, n) ∈ l_1 := by
  unfold l1ItemSet
  rw [List.mem_toFinset, List.mem_filterMap]
  constructor
  · rintro ⟨kv, hkv, he⟩
    cases hx : kv.1 with
    | single b =>
        rw [hx] at he
        have he' : some b = some a := he
        injection he' with hba
        refine ⟨kv.2, ?_⟩
        have : kv = (Key.single a, kv.2) := by
          cases kv
          simp_all
        rw [← this]
        exact hkv
    | tuple t =>
        rw [hx] at he
        cases he
  · rintro ⟨n, hn⟩
    exact ⟨(Key.single a, n), hn, rfl⟩

theorem count_map_single {α : Type} [LinearOrder α] (r : List α) (a : α) :
    (r.map Key.single).count (Key.single a) = r.count a :=
  List.count_map_of_injective r Key.single (fun x y h => by injection h) a

theorem dlookup_single_counter {α : Type} [LinearOrder α] (rows : List (List α)) (a : α) :
    dlookup (generate_all_single_candidates rows).1 (Key.single a) =
      if (rows.map fun r => r.count a).sum = 0 then none
      else some (rows.map fun r => r.count a).sum := by
  rw [generate_all_single_candidates_eq]
  show dlookup (countTable rows fun r => r.map Key.single) (Key.single a) = _
  rw [dlookup_countTable]
  have hc : (rows.map fun r => (r.map Key.single).count (Key.single a)).sum =
      (rows.map fun r => r.count a).sum := by
    congr 1
    apply List.map_congr_left
    intro r _
    exact count_map_single r a
  rw [hc]

/-- C3: `filter_candidates` is a pure support filter: an (itemset, count) pair
appears in the output exactly when it appears in the input candidate table
and its count is strictly greater than the support threshold, with the count
value unchanged. -/
theorem C3_filter_candidates_strict {κ : Type} [DecidableEq κ]
    (c_k : Dict κ ℕ) (support : ℤ) (key : κ) (n : ℕ) :
    (key, n) ∈ filter_candidates c_k support ↔
      (key, n) ∈ c_k ∧ support < (n : ℤ) :=
  mem_filter_candidates

theorem candKeys_eq_noCheck {α : Type} [LinearOrder α] (l1set : Finset α) (k : ℕ)
    (basket : Finset α) :
    candKeys l1set k basket = candKeysNoCheck l1set k basket := by
  unfold candKeys candKeysNoCheck
  congr 1
  apply List.filter_eq_self.mpr
  intro t ht
  apply decide_eq_true
  intro a ha
  have hsub := (List.mem_sublistsLen.mp ht).1
  exact (mem_sortInter.mp (hsub.subset (List.mem_toFinset.mp ha))).2

/-- C8: the `issubset` check inside `generate_next_candidates` is redundant —
every enumerated combination already comes from the basket's intersection
with the level-1-frequent items, so removing the check yields an identical
candidate table. -/
theorem C8_subset_check_redundant {α : Type} [LinearOrder α]
    (all_baskets : List (Finset α)) (l_1 : Dict (Key α) ℕ) (k : ℕ) :
    generate_next_candidates all_baskets l_1 k =
      generate_next_candidates_nocheck all_baskets l_1 k := by
  unfold generate_next_candidates generate_next_candidates_nocheck
  congr 1
  funext basket
  exact candKeys_eq_noCheck (l1ItemSet l_1) k basket

/-- C5: the keys of `generate_next_candidates` are exactly the canonically
sorted (strictly ascending, hence distinct) `k`-tuples of level-1-frequent
items occurring together in at least one basket; each key maps to the number
of baskets containing all of its items (at most 1 per basket), and no bare
item ever appears as a key. -/
theorem C5_generate_next_candidates_char {α : Type} [LinearOrder α]
    (all_baskets : List (Finset α)) (l_1 : Dict (Key α) ℕ) (k : ℕ) :
    (∀ t n,
      dlookup (generate_next_candidates all_baskets l_1 k) (Key.tuple t) = some n ↔
        (t.length = k ∧ t.Sorted (· < ·) ∧ (∀ a ∈ t, a ∈ l1ItemSet l_1) ∧
          n = all_baskets.countP (fun b => decide (t.toFinset ⊆ b)) ∧ 0 < n)) ∧
    (∀ a, dlookup (generate_next_candidates all_baskets l_1 k) (Key.single a) = none) :=
  ⟨fun t n => dlookup_generate_next_candidates all_baskets l_1 k t n,
   fun a => dlookup_generate_next_candidates_single all_baskets l_1 k a⟩

/-- C1 counterexample: the corpus whose single row lists item `0` twice.  The
Level-1 Counter records count 2 for the item although only one basket
contains it, refuting "each basket contributes exactly 1 to the count of
each distinct item it contains". -/
theorem C1_counterexample :
    dlookup (generate_all_single_candidates [[(0 : ℕ), 0]]).1 (Key.single 0) = some 2 ∧
      ((generate_all_single_candidates [[(0 : ℕ), 0]]).2).countP
        (fun b => decide ((0 : ℕ) ∈ b)) = 1 ∧
      dlookup (generate_all_single_candidates [[(0 : ℕ), 0]]).1 (Key.single 0) ≠
        some (((generate_all_single_candidates [[(0 : ℕ), 0]]).2).countP
          (fun b => decide ((0 : ℕ) ∈ b))) := by
  refine ⟨by decide, by decide, by decide⟩

/-- C1 (amended): the Level-1 Counter maps each item to its total number of
occurrences across the corpus's rows — a row listing the same item twice
contributes 2, because the source iterates the raw `row_list`, not the
dedup-licated basket.  When no row repeats an item, this equals the number
of baskets containing the item. -/
theorem C1_amended_occurrence_count {α : Type} [LinearOrder α]
    (rows : List (List α)) (a : α) :
    (dlookup (generate_all_single_candidates rows).1 (Key.single a) =
      if (rows.map fun r => r.count a).sum = 0 then none
      else some (rows.map fun r => r.count a).sum) ∧
    ((∀ r ∈ rows, r.Nodup) →
      dlookup (generate_all_single_candidates rows).1 (Key.single a) =
        if rows.countP (fun r => decide (a ∈ r)) = 0 then none
        else some (rows.countP (fun r => decide (a ∈ r)))) := by
  refine ⟨dlookup_single_counter rows a, ?_⟩
  intro hnd
  rw [dlookup_single_counter rows a]
  have hc : (rows.map fun r => r.count a).sum =
      rows.countP (fun r => decide (a ∈ r)) := by
    rw [← sum_map_ite_eq_countP]
    congr 1
    apply List.map_congr_left
    intro r hr
    by_cases hm : a ∈ r
    · rw [List.count_eq_one_of_mem (hnd r hr) hm]
      simp [hm]
    · rw [List.count_eq_zero_of_not_mem hm]
      simp [hm]
  rw [hc]

/-- Closed instantiation of the amended C1 at a duplicate-free corpus. -/
theorem C1_amended_witness :
    (dlookup (generate_all_single_candidates [[(0 : ℕ), 1], [0]]).1 (Key.single 0) =
      if (([[(0 : ℕ), 1], [0]].map fun r => r.count 0).sum) = 0 then none
      else some (([[(0 : ℕ), 1], [0]].map fun r => r.count 0).sum)) ∧
    (dlookup (generate_all_single_candidates [[(0 : ℕ), 1], [0]]).1 (Key.single 0) =
      if [[(0 : ℕ), 1], [0]].countP (fun r => decide ((0 : ℕ) ∈ r)) = 0 then none
      else some ([[(0 : ℕ), 1], [0]].countP (fun r => decide ((0 : ℕ) ∈ r)))) :=
  ⟨(C1_amended_occurrence_count [[0, 1], [0]] 0).1,
   (C1_amended_occurrence_count [[0, 1], [0]] 0).2 (by decide)⟩

section Termination

variable {α : Type} [LinearOrder α]

theorem le_maxBasketSize {all_baskets : List (Finset α)} {b : Finset α}
    (hb : b ∈ all_baskets) : b.card ≤ maxBasketSize all_baskets := by
  unfold maxBasketSize
  induction all_baskets with
  | nil => cases hb
  | cons c rest ih =>
      rcases List.mem_cons.mp hb with h1 | h1
      · rw [h1]
        exact le_max_left _ _
      · exact le_trans (ih h1) (le_max_right _ _)

theorem countTable_nil_keys {ρ κ : Type} [DecidableEq κ] (rows : List ρ)
    (keysOf : ρ → List κ) (h : ∀ r ∈ rows, keysOf r = []) :
    countTable rows keysOf = [] := by
  unfold countTable
  induction rows with
  | nil => rfl
  | cons r rest ih =>
      have step : (r :: rest).foldl (fun d r => bumpAll d (keysOf r)) [] =
          rest.foldl (fun d r => bumpAll d (keysOf r)) (bumpAll [] (keysOf r)) := rfl
      rw [step, h r (List.mem_cons_self r rest)]
      exact ih (fun r hr => h r (List.mem_cons_of_mem _ hr))

theorem generate_next_candidates_empty_of_big {all_baskets : List (Finset α)}
    {l_1 : Dict (Key α) ℕ} {k : ℕ} (hk : maxBasketSize all_baskets < k) :
    generate_next_candidates all_baskets l_1 k = [] := by
  unfold generate_next_candidates
  apply countTable_nil_keys
  intro b hb
  unfold candKeys
  have hlen : (sortInter (l1ItemSet l_1) b).length < k := by
    have h1 : (sortInter (l1ItemSet l_1) b).length = (l1ItemSet l_1 ∩ b).card :=
      length_sortedList _
    have h2 : (l1ItemSet l_1 ∩ b).card ≤ b.card :=
      Finset.card_le_card (Finset.inter_subset_right)
    have h3 := le_maxBasketSize hb
    omega
  have hnil : List.sublistsLen k (sortInter (l1ItemSet l_1) b) = [] := by
    apply List.length_eq_zero.mp
    rw [List.length_sublistsLen]
    exact Nat.choose_eq_zero_of_lt hlen
  rw [hnil]
  rfl

theorem aprioriLoop_succ (all_baskets : List (Finset α)) (support : ℤ)
    (l_1 : Dict (Key α) ℕ) (fuel k : ℕ) (l_k allFreq above : Dict (Key α) ℕ) :
    aprioriLoop all_baskets support l_1 (fuel + 1) k l_k allFreq above =
      if l_k.isEmpty then (allFreq, above)
      else
        aprioriLoop all_baskets support l_1 fuel (k + 1)
          (filter_candidates (generate_next_candidates all_baskets l_1 k) support)
          (dictMerge allFreq
            (filter_candidates (generate_next_candidates all_baskets l_1 k) support))
          (dictMerge above
            (filter_candidates (generate_next_candidates all_baskets l_1 k) support)) :=
  rfl

theorem aprioriLoop_stop (all_baskets : List (Finset α)) (support : ℤ)
    (l_1 : Dict (Key α) ℕ) (fuel k : ℕ) (allFreq above : Dict (Key α) ℕ) :
    aprioriLoop all_baskets support l_1 (fuel + 1) k [] allFreq above =
      (allFreq, above) := rfl

theorem aprioriLoop_past_max (all_baskets : List (Finset α)) (support : ℤ)
    (l_1 : Dict (Key α) ℕ) :
    ∀ (fuel k : ℕ), maxBasketSize all_baskets + 1 ≤ k →
      ∀ (l_k allFreq above : Dict (Key α) ℕ),
        aprioriLoop all_baskets support l_1 fuel k l_k allFreq above =
          (allFreq, above) := by
  intro fuel
  induction fuel with
  | zero => intro k _ l_k allFreq above; rfl
  | succ fuel ih =>
      intro k hk l_k allFreq above
      rw [aprioriLoop_succ]
      cases hlk : l_k.isEmpty
      · rw [if_neg (by simp [hlk])]
        have hgen : generate_next_candidates all_baskets l_1 k = [] :=
          generate_next_candidates_empty_of_big (by omega)
        rw [hgen]
        have hfil : filter_candidates ([] : Dict (Key α) ℕ) support = [] := rfl
        rw [hfil, dictMerge_nil, dictMerge_nil]
        exact ih (k + 1) (by omega) [] allFreq above
      · rw [if_pos (by simp [hlk])]

theorem aprioriLoop_fuel_stable (all_baskets : List (Finset α)) (support : ℤ)
    (l_1 : Dict (Key α) ℕ) :
    ∀ (fuel₁ fuel₂ k : ℕ) (l_k allFreq above : Dict (Key α) ℕ),
      maxBasketSize all_baskets + 2 ≤ k + fuel₁ →
      maxBasketSize all_baskets + 2 ≤ k + fuel₂ →
        aprioriLoop all_baskets support l_1 fuel₁ k l_k allFreq above =
          aprioriLoop all_baskets support l_1 fuel₂ k l_k allFreq above := by
  intro fuel₁
  induction fuel₁ with
  | zero =>
      intro fuel₂ k l_k allFreq above h1 h2
      rw [aprioriLoop_past_max all_baskets support l_1 0 k (by omega),
        aprioriLoop_past_max all_baskets support l_1 fuel₂ k (by omega)]
  | succ fuel₁ ih =>
      intro fuel₂ k l_k allFreq above h1 h2
      cases fuel₂ with
      | zero =>
          rw [aprioriLoop_past_max all_baskets support l_1 (fuel₁ + 1) k (by omega),
            aprioriLoop_past_max all_baskets support l_1 0 k (by omega)]
      | succ fuel₂ =>
          rw [aprioriLoop_succ, aprioriLoop_succ]
          cases hlk : l_k.isEmpty
          · rw [if_neg (by simp [hlk]), if_neg (by simp [hlk])]
            exact ih fuel₂ (k + 1) _ _ _ (by omega) (by omega)
          · rw [if_pos (by simp [hlk]), if_pos (by simp [hlk])]

end Termination

/-- C6: the Driver's level-wise loop terminates.  An empty current frequent
table stops it at once; an empty `L_1` makes `apriori` return `({}, {})`
immediately; the fuel chosen in `apriori` is irrelevant (any fuel past the
maximum basket size gives the same answer), because at any level beyond the
maximum basket size the loop yields no further candidates and stops. -/
theorem C6_apriori_terminates {α : Type} [LinearOrder α]
    (all_baskets : List (Finset α)) (support : ℤ) (c_1 : Dict (Key α) ℕ) :
    (filter_candidates c_1 support = [] →
      apriori all_baskets support c_1 = ([], [])) ∧
    (∀ (fuel k : ℕ) (allFreq above : Dict (Key α) ℕ),
      aprioriLoop all_baskets support (filter_candidates c_1 support) (fuel + 1) k []
        allFreq above = (allFreq, above)) ∧
    (∀ fuel : ℕ, maxBasketSize all_baskets + 1 ≤ fuel →
      aprioriLoop all_baskets support (filter_candidates c_1 support) fuel 2
        (filter_candidates c_1 support) (filter_candidates c_1 support) [] =
        apriori all_baskets support c_1) ∧
    (∀ (k : ℕ) (l_k allFreq above : Dict (Key α) ℕ) (fuel : ℕ),
      maxBasketSize all_baskets + 1 ≤ k →
      aprioriLoop all_baskets support (filter_candidates c_1 support) fuel k l_k
        allFreq above = (allFreq, above)) := by
  refine ⟨?_, ?_, ?_, ?_⟩
  · intro h
    show aprioriLoop all_baskets support (filter_candidates c_1 support)
      (maxBasketSize all_baskets + 1) 2 (filter_candidates c_1 support)
      (filter_candidates c_1 support) [] = ([], [])
    rw [h]
    exact aprioriLoop_stop all_baskets support [] (maxBasketSize all_baskets) 2 [] []
  · intro fuel k allFreq above
    exact aprioriLoop_stop all_baskets support (filter_candidates c_1 support)
      fuel k allFreq above
  · intro fuel hf
    show _ = aprioriLoop all_baskets support (filter_candidates c_1 support)
      (maxBasketSize all_baskets + 1) 2 (filter_candidates c_1 support)
      (filter_candidates c_1 support) []
    exact aprioriLoop_fuel_stable all_baskets support (filter_candidates c_1 support)
      fuel (maxBasketSize all_baskets + 1) 2 _ _ _ (by omega) (by omega)
  · intro k l_k allFreq above fuel hk
    exact aprioriLoop_past_max all_baskets support (filter_candidates c_1 support)
      fuel k hk l_k allFreq above

/-- Closed instantiation of C6: one-basket corpus `{0}`, support 5 makes
`L_1` empty; each part of the termination theorem evaluated concretely. -/
theorem C6_witness :
    (apriori [({0} : Finset ℕ)] 5 [(Key.single 0, 1)] = ([], [])) ∧
    (aprioriLoop [({0} : Finset ℕ)] 5 (filter_candidates [(Key.single 0, 1)] 5) 1 2 []
      [(Key.single 0, 1)] [] = ([(Key.single 0, 1)], [])) ∧
    (aprioriLoop [({0} : Finset ℕ)] 5 (filter_candidates [(Key.single 0, 1)] 5) 3 2
      (filter_candidates [(Key.single 0, 1)] 5)
      (filter_candidates [(Key.single 0, 1)] 5) [] =
      apriori [({0} : Finset ℕ)] 5 [(Key.single 0, 1)]) ∧
    (aprioriLoop [({0} : Finset ℕ)] 5 (filter_candidates [(Key.single 0, 1)] 5) 7 2
      [(Key.tuple [0, 1], 9)] [] [] = ([], [])) :=
  ⟨(C6_apriori_terminates [({0} : Finset ℕ)] 5 [(Key.single 0, 1)]).1 (by decide),
   (C6_apriori_terminates [({0} : Finset ℕ)] 5 [(Key.single 0, 1)]).2.1 0 2
     [(Key.single 0, 1)] [],
   (C6_apriori_terminates [({0} : Finset ℕ)] 5 [(Key.single 0, 1)]).2.2.1 3 (by decide),
   (C6_apriori_terminates [({0} : Finset ℕ)] 5 [(Key.single 0, 1)]).2.2.2 2
     [(Key.tuple [0, 1], 9)] [] [] 7 (by decide)⟩

section Invariant

variable {α : Type} [LinearOrder α]

/-- The frequent table the Driver computes at level `j ≥ 2`. -/
def levelTable (all_baskets : List (Finset α)) (support : ℤ) (l_1 : Dict (Key α) ℕ)
    (j : ℕ) : Dict (Key α) ℕ :=
  filter_candidates (generate_next_candidates all_baskets l_1 j) support

theorem dkeys_nodup_generate_next_candidates (all_baskets : List (Finset α))
    (l_1 : Dict (Key α) ℕ) (k : ℕ) :
    (dkeys (generate_next_candidates all_baskets l_1 k)).Nodup :=
  dkeys_nodup_countTable all_baskets _

theorem dkeys_nodup_levelTable (all_baskets : List (Finset α)) (support : ℤ)
    (l_1 : Dict (Key α) ℕ) (j : ℕ) :
    (dkeys (levelTable all_baskets support l_1 j)).Nodup :=
  dkeys_nodup_filter_candidates
    (dkeys_nodup_generate_next_candidates all_baskets l_1 j) support

theorem dlookup_levelTable_some {all_baskets : List (Finset α)} {support : ℤ}
    {l_1 : Dict (Key α) ℕ} {j : ℕ} {key : Key α} {n : ℕ} :
    dlookup (levelTable all_baskets support l_1 j) key = some n ↔
      dlookup (generate_next_candidates all_baskets l_1 j) key = some n ∧
        support < (n : ℤ) :=
  dlookup_filter_candidates_some
    (dkeys_nodup_generate_next_candidates all_baskets l_1 j)

theorem dlookup_levelTable_single (all_baskets : List (Finset α)) (support : ℤ)
    (l_1 : Dict (Key α) ℕ) (j : ℕ) (a : α) :
    dlookup (levelTable all_baskets support l_1 j) (Key.single a) = none := by
  unfold levelTable
  rw [dlookup_filter_candidates
    (dkeys_nodup_generate_next_candidates all_baskets l_1 j),
    dlookup_generate_next_candidates_single]
  rfl

/-- The invariant the Driver's loop maintains at the start of each iteration
with level counter `k`: every accumulated size-`≥ 2` itemset is an entry of
the frequent table of its own (already visited) level; the accumulators hold
no other tuple entries; `AllFrequent`'s bare-item entries are exactly `L_1`;
and every already-visited level's frequent table is contained in
`AllFrequent`. -/
def LoopInv (all_baskets : List (Finset α)) (support : ℤ) (l_1 : Dict (Key α) ℕ)
    (k : ℕ) (allFreq above : Dict (Key α) ℕ) : Prop :=
  (∀ t n, dlookup above (Key.tuple t) = some n →
      2 ≤ t.length ∧ t.length < k ∧
      dlookup (levelTable all_baskets support l_1 t.length) (Key.tuple t) = some n) ∧
  (∀ a, dlookup above (Key.single a) = none) ∧
  (∀ t n, dlookup allFreq (Key.tuple t) = some n →
      2 ≤ t.length ∧ t.length < k ∧
      dlookup (levelTable all_baskets support l_1 t.length) (Key.tuple t) = some n) ∧
  (∀ a n, dlookup allFreq (Key.single a) = some n ↔
      dlookup l_1 (Key.single a) = some n) ∧
  (∀ j, 2 ≤ j → j < k → ∀ key n,
      dlookup (levelTable all_baskets support l_1 j) key = some n →
      dlookup allFreq key = some n)

theorem loopInv_step (all_baskets : List (Finset α)) (support : ℤ)
    (l_1 : Dict (Key α) ℕ) (k : ℕ) (allFreq above : Dict (Key α) ℕ)
    (hk : 2 ≤ k) (hinv : LoopInv all_baskets support l_1 k allFreq above) :
    LoopInv all_baskets support l_1 (k + 1)
      (dictMerge allFreq (levelTable all_baskets support l_1 k))
      (dictMerge above (levelTable all_baskets support l_1 k)) := by
  obtain ⟨hAb, hAbS, hAf, hAfS, hLev⟩ := hinv
  have hlen : ∀ t n,
      dlookup (levelTable all_baskets support l_1 k) (Key.tuple t) = some n →
      t.length = k := by
    intro t n h
    exact ((dlookup_generate_next_candidates all_baskets l_1 k t n).mp
      (dlookup_levelTable_some.mp h).1).1
  refine ⟨?_, ?_, ?_, ?_, ?_⟩
  · intro t n h
    rcases dlookup_dictMerge_inv h with h1 | ⟨h1, h2⟩
    · have ht := hlen t n h1
      exact ⟨by omega, by omega, by rw [ht]; exact h1⟩
    · have := hAb t n h2
      exact ⟨this.1, by omega, this.2.2⟩
  · intro a
    rw [dlookup_dictMerge_of_none_right
      (dlookup_levelTable_single all_baskets support l_1 k a)]
    exact hAbS a
  · intro t n h
    rcases dlookup_dictMerge_inv h with h1 | ⟨h1, h2⟩
    · have ht := hlen t n h1
      exact ⟨by omega, by omega, by rw [ht]; exact h1⟩
    · have := hAf t n h2
      exact ⟨this.1, by omega, this.2.2⟩
  · intro a n
    rw [dlookup_dictMerge_of_none_right
      (dlookup_levelTable_single all_baskets support l_1 k a)]
    exact hAfS a n
  · intro j hj2 hjk key n h
    by_cases hjlt : j < k
    · have hold := hLev j hj2 hjlt key n h
      cases key with
      | single a =>
          rw [dlookup_dictMerge_of_none_right
            (dlookup_levelTable_single all_baskets support l_1 k a)]
          exact hold
      | tuple t =>
          have htl : t.length < k := (hAf t n hold).2.1
          have hnone : dlookup (levelTable all_baskets support l_1 k)
              (Key.tuple t) = none := by
            cases hx : dlookup (levelTable all_baskets support l_1 k)
                (Key.tuple t) with
            | none => rfl
            | some m =>
                have := hlen t m hx
                omega
          rw [dlookup_dictMerge_of_none_right hnone]
          exact hold
    · have hjk' : j = k := by omega
      subst hjk'
      exact dlookup_dictMerge_of_right h

end Invariant

section InvariantLoop

variable {α : Type} [LinearOrder α]

theorem aprioriLoop_inv (all_baskets : List (Finset α)) (support : ℤ)
    (l_1 : Dict (Key α) ℕ) :
    ∀ (fuel k : ℕ) (l_k allFreq above : Dict (Key α) ℕ), 2 ≤ k →
      LoopInv all_baskets support l_1 k allFreq above →
      ∃ K, k ≤ K ∧
        LoopInv all_baskets support l_1 K
          (aprioriLoop all_baskets support l_1 fuel k l_k allFreq above).1
          (aprioriLoop all_baskets support l_1 fuel k l_k allFreq above).2 := by
  intro fuel
  induction fuel with
  | zero =>
      intro k l_k allFreq above hk hinv
      exact ⟨k, le_refl k, hinv⟩
  | succ fuel ih =>
      intro k l_k allFreq above hk hinv
      rw [aprioriLoop_succ]
      cases hlk : l_k.isEmpty
      · rw [if_neg (by simp [hlk])]
        have hstep := loopInv_step all_baskets support l_1 k allFreq above hk hinv
        rcases ih (k + 1) (filter_candidates
            (generate_next_candidates all_baskets l_1 k) support)
            (dictMerge allFreq (filter_candidates
              (generate_next_candidates all_baskets l_1 k) support))
            (dictMerge above (filter_candidates
              (generate_next_candidates all_baskets l_1 k) support))
            (by omega) hstep with ⟨K, hK, hKinv⟩
        exact ⟨K, by omega, hKinv⟩
      · rw [if_pos (by simp [hlk])]
        exact ⟨k, le_refl k, hinv⟩

theorem aprioriLoop_nodup (all_baskets : List (Finset α)) (support : ℤ)
    (l_1 : Dict (Key α) ℕ) :
    ∀ (fuel k : ℕ) (l_k allFreq above : Dict (Key α) ℕ),
      (dkeys allFreq).Nodup → (dkeys above).Nodup →
      (dkeys (aprioriLoop all_baskets support l_1 fuel k l_k allFreq above).1).Nodup ∧
      (dkeys (aprioriLoop all_baskets support l_1 fuel k l_k allFreq above).2).Nodup := by
  intro fuel
  induction fuel with
  | zero => intro k l_k allFreq above h1 h2; exact ⟨h1, h2⟩
  | succ fuel ih =>
      intro k l_k allFreq above h1 h2
      rw [aprioriLoop_succ]
      cases hlk : l_k.isEmpty
      · rw [if_neg (by simp [hlk])]
        exact ih (k + 1) _ _ _
          (dkeys_nodup_dictMerge h1 (dkeys_nodup_levelTable all_baskets support l_1 k))
          (dkeys_nodup_dictMerge h2 (dkeys_nodup_levelTable all_baskets support l_1 k))
      · rw [if_pos (by simp [hlk])]
        exact ⟨h1, h2⟩

theorem apriori_inv (all_baskets : List (Finset α)) (support : ℤ)
    (c_1 : Dict (Key α) ℕ) (hnd : (dkeys c_1).Nodup)
    (hsingles : ∀ t, dlookup c_1 (Key.tuple t) = none) :
    ∃ K, 2 ≤ K ∧
      LoopInv all_baskets support (filter_candidates c_1 support) K
        (apriori all_baskets support c_1).1 (apriori all_baskets support c_1).2 := by
  have hinit : LoopInv all_baskets support (filter_candidates c_1 support) 2
      (filter_candidates c_1 support) [] := by
    refine ⟨?_, ?_, ?_, ?_, ?_⟩
    · intro t n h
      cases h
    · intro a
      rfl
    · intro t n h
      have := (dlookup_filter_candidates_some hnd).mp h
      rw [hsingles t] at this
      cases this.1
    · intro a n
      exact Iff.rfl
    · intro j hj2 hjk
      omega
  exact aprioriLoop_inv all_baskets support (filter_candidates c_1 support)
    (maxBasketSize all_baskets + 1) 2 (filter_candidates c_1 support)
    (filter_candidates c_1 support) [] (le_refl 2) hinit

theorem apriori_nodup (all_baskets : List (Finset α)) (support : ℤ)
    (c_1 : Dict (Key α) ℕ) (hnd : (dkeys c_1).Nodup) :
    (dkeys (apriori all_baskets support c_1).1).Nodup ∧
    (dkeys (apriori all_baskets support c_1).2).Nodup :=
  aprioriLoop_nodup all_baskets support (filter_candidates c_1 support)
    (maxBasketSize all_baskets + 1) 2 (filter_candidates c_1 support)
    (filter_candidates c_1 support) []
    (dkeys_nodup_filter_candidates hnd support) List.nodup_nil

end InvariantLoop

section AntecedentSupport

variable {α : Type} [LinearOrder α]

theorem antKey_singleton (a : α) : antKey [a] = Key.single a := rfl

theorem antKey_of_two_le {A : List α} (h : 2 ≤ A.length) : antKey A = Key.tuple A := by
  cases A with
  | nil => cases h
  | cons a rest =>
      cases rest with
      | nil => simp at h
      | cons b rest' => rfl

theorem mem_antecedents {X sub : List α} :
    sub ∈ antecedents X ↔
      ∃ i, 1 ≤ i ∧ i < X.length ∧ sub ∈ List.sublistsLen i X := by
  unfold antecedents
  rw [List.mem_flatMap]
  constructor
  · rintro ⟨i, hi, hsub⟩
    have h := List.mem_range'_1.mp hi
    exact ⟨i, h.1, by omega, hsub⟩
  · rintro ⟨i, h1, h2, hsub⟩
    exact ⟨i, List.mem_range'_1.mpr ⟨h1, by omega⟩, hsub⟩

theorem apriori_above_single (all_baskets : List (Finset α)) (support : ℤ)
    (c_1 : Dict (Key α) ℕ) (hnd : (dkeys c_1).Nodup)
    (hsingles : ∀ t, dlookup c_1 (Key.tuple t) = none) (a : α) :
    dlookup (apriori all_baskets support c_1).2 (Key.single a) = none := by
  obtain ⟨K, _, hInv⟩ := apriori_inv all_baskets support c_1 hnd hsingles
  exact hInv.2.1 a

/-- Everything the pipeline guarantees about an entry of `FrequentAboveOne`:
its shape, its count, and the presence (and size) of every antecedent's
support in `AllFrequent` under the rule miner's key shapes. -/
theorem apriori_above_char (all_baskets : List (Finset α)) (support : ℤ)
    (c_1 : Dict (Key α) ℕ) (hnd : (dkeys c_1).Nodup)
    (hsingles : ∀ t, dlookup c_1 (Key.tuple t) = none) :
    ∀ X n, dlookup (apriori all_baskets support c_1).2 (Key.tuple X) = some n →
      2 ≤ X.length ∧ X.Sorted (· < ·) ∧
      n = all_baskets.countP (fun b => decide (X.toFinset ⊆ b)) ∧
      0 < n ∧ support < (n : ℤ) ∧
      ∀ sub ∈ antecedents X,
        ∃ m, dlookup (apriori all_baskets support c_1).1 (antKey sub) = some m ∧
          ((∃ a, sub = [a] ∧
              dlookup (filter_candidates c_1 support) (Key.single a) = some m) ∨
           (2 ≤ sub.length ∧ n ≤ m ∧
              m = all_baskets.countP (fun b => decide (sub.toFinset ⊆ b)) ∧
              support < (m : ℤ))) := by
  obtain ⟨K, hK2, hInv⟩ := apriori_inv all_baskets support c_1 hnd hsingles
  obtain ⟨hAb, hAbS, hAf, hAfS, hLev⟩ := hInv
  intro X n hX
  have h1 := hAb X n hX
  have hchar := dlookup_levelTable_some.mp h1.2.2
  have hgen := (dlookup_generate_next_candidates all_baskets
    (filter_candidates c_1 support) X.length X n).mp hchar.1
  refine ⟨h1.1, hgen.2.1, hgen.2.2.2.1, hgen.2.2.2.2, hchar.2, ?_⟩
  intro sub hsub
  rcases mem_antecedents.mp hsub with ⟨i, hi1, hi2, hmem⟩
  have hsubl := List.mem_sublistsLen.mp hmem
  by_cases hone : sub.length = 1
  · rcases List.length_eq_one.mp hone with ⟨a, ha⟩
    subst ha
    have haX : a ∈ X := hsubl.1.subset (List.mem_singleton_self a)
    have hal1 : a ∈ l1ItemSet (filter_candidates c_1 support) := hgen.2.2.1 a haX
    rcases mem_l1ItemSet.mp hal1 with ⟨p, hp⟩
    rcases dlookup_isSome_of_mem hp with ⟨w, hw⟩
    refine ⟨w, ?_, Or.inl ⟨a, rfl, hw⟩⟩
    rw [antKey_singleton]
    exact (hAfS a w).mpr hw
  · have htwo : 2 ≤ sub.length := by omega
    have hnm : n ≤ all_baskets.countP (fun b => decide (sub.toFinset ⊆ b)) := by
      rw [hgen.2.2.2.1]
      apply countP_le_countP_of_imp
      intro b _ hXb
      apply decide_eq_true
      intro x hx
      exact (of_decide_eq_true hXb)
        (List.mem_toFinset.mpr (hsubl.1.subset (List.mem_toFinset.mp hx)))
    have hm1 : 0 < all_baskets.countP (fun b => decide (sub.toFinset ⊆ b)) :=
      lt_of_lt_of_le hgen.2.2.2.2 hnm
    have hms : support < ((all_baskets.countP
        (fun b => decide (sub.toFinset ⊆ b)) : ℕ) : ℤ) :=
      lt_of_lt_of_le hchar.2 (by exact_mod_cast hnm)
    have hgen' : dlookup (generate_next_candidates all_baskets
        (filter_candidates c_1 support) sub.length) (Key.tuple sub) =
        some (all_baskets.countP (fun b => decide (sub.toFinset ⊆ b))) :=
      (dlookup_generate_next_candidates all_baskets
        (filter_candidates c_1 support) sub.length sub _).mpr
        ⟨rfl, List.Pairwise.sublist hsubl.1 hgen.2.1,
         fun a ha => hgen.2.2.1 a (hsubl.1.subset ha), rfl, hm1⟩
    have hlev' : dlookup (levelTable all_baskets support
        (filter_candidates c_1 support) sub.length) (Key.tuple sub) =
        some (all_baskets.countP (fun b => decide (sub.toFinset ⊆ b))) :=
      dlookup_levelTable_some.mpr ⟨hgen', hms⟩
    have hsubK : sub.length < K := by
      have := h1.2.1
      omega
    have hF := hLev sub.length htwo hsubK _ _ hlev'
    refine ⟨_, ?_, Or.inr ⟨htwo, hnm, rfl, hms⟩⟩
    rw [antKey_of_two_le htwo]
    exact hF

end AntecedentSupport

section RulesChar

variable {α : Type} [LinearOrder α]

theorem omapM_total {β γ : Type} {f : β → Option γ} :
    ∀ {l : List β}, (∀ x ∈ l, ∃ y, f x = some y) → ∃ ys, omapM f l = some ys := by
  intro l
  induction l with
  | nil => intro _; exact ⟨[], rfl⟩
  | cons x xs ih =>
      intro h
      rcases h x (List.mem_cons_self x xs) with ⟨y, hy⟩
      rcases ih (fun z hz => h z (List.mem_cons_of_mem x hz)) with ⟨ys, hys⟩
      refine ⟨y :: ys, ?_⟩
      show (match f x, omapM f xs with
        | some y, some ys => some (y :: ys)
        | _, _ => none) = some (y :: ys)
      rw [hy, hys]

theorem ruleOf_eq_some_iff {F : Dict (Key α) ℕ} {X : List α} {supp : ℕ}
    {A : List α} {r : Rule α} :
    ruleOf F X supp A = some r ↔
      ∃ m, dlookup F (antKey A) = some m ∧
        r = ⟨A.toFinset, X.toFinset \ A.toFinset, supp, (supp : ℚ) / m⟩ := by
  unfold ruleOf
  cases hx : dlookup F (antKey A) with
  | none =>
      constructor
      · intro h
        exact Option.noConfusion h
      · rintro ⟨m, hm, _⟩
        exact Option.noConfusion hm
  | some m0 =>
      constructor
      · intro h
        have h' : some ((⟨A.toFinset, X.toFinset \ A.toFinset, supp,
            (supp : ℚ) / m0⟩ : Rule α)) = some r := h
        injection h' with he
        exact ⟨m0, rfl, he.symm⟩
      · rintro ⟨m, hm, hre⟩
        injection hm with hm'
        show some ((⟨A.toFinset, X.toFinset \ A.toFinset, supp,
            (supp : ℚ) / m0⟩ : Rule α)) = some r
        rw [hre, hm']

theorem rulesForItemset_char (F : Dict (Key α) ℕ) (θ : ℚ) (X : List α) (supp : ℕ)
    (hsucc : ∀ sub ∈ antecedents X, ∃ m, dlookup F (antKey sub) = some m) :
    ∃ yl, rulesForItemset F θ X supp = some yl ∧
      ∀ r, r ∈ yl ↔
        ∃ sub ∈ antecedents X, ∃ m, dlookup F (antKey sub) = some m ∧
          r = ⟨sub.toFinset, X.toFinset \ sub.toFinset, supp, (supp : ℚ) / m⟩ ∧
          θ < (supp : ℚ) / m := by
  have htot : ∀ sub ∈ antecedents X, ∃ r', ruleOf F X supp sub = some r' := by
    intro sub hsub
    rcases hsucc sub hsub with ⟨m, hm⟩
    refine ⟨⟨sub.toFinset, X.toFinset \ sub.toFinset, supp, (supp : ℚ) / m⟩, ?_⟩
    unfold ruleOf
    rw [hm]
    rfl
  rcases omapM_total htot with ⟨zs, hzs⟩
  refine ⟨zs.filter (fun r => decide (θ < r.conf)), ?_, ?_⟩
  · unfold rulesForItemset
    rw [hzs]
    rfl
  · intro r
    rw [List.mem_filter]
    constructor
    · rintro ⟨hrz, hp⟩
      rcases (mem_omapM hzs).mp hrz with ⟨sub, hsub, hr⟩
      rcases ruleOf_eq_some_iff.mp hr with ⟨m, hm, hre⟩
      refine ⟨sub, hsub, m, hm, hre, ?_⟩
      have hθ := of_decide_eq_true hp
      rw [hre] at hθ
      exact hθ
    · rintro ⟨sub, hsub, m, hm, hre, hθ⟩
      constructor
      · exact (mem_omapM hzs).mpr ⟨sub, hsub, ruleOf_eq_some_iff.mpr ⟨m, hm, hre⟩⟩
      · apply decide_eq_true
        rw [hre]
        exact hθ

theorem gar_char (F A : Dict (Key α) ℕ) (θ : ℚ)
    (hndA : (dkeys A).Nodup)
    (hAsingle : ∀ a, dlookup A (Key.single a) = none)
    (hsucc : ∀ X n, dlookup A (Key.tuple X) = some n →
        ∀ sub ∈ antecedents X, ∃ m, dlookup F (antKey sub) = some m) :
    ∃ rs, generate_association_rules F A θ = some rs ∧
      ∀ r, r ∈ rs ↔
        ∃ X n, dlookup A (Key.tuple X) = some n ∧
          ∃ sub ∈ antecedents X, ∃ m, dlookup F (antKey sub) = some m ∧
            r = ⟨sub.toFinset, X.toFinset \ sub.toFinset, n, (n : ℚ) / m⟩ ∧
            θ < (n : ℚ) / m := by
  have hkey : ∀ kv : Key α × ℕ, kv ∈ A → ∃ X, kv.1 = Key.tuple X := by
    intro kv hkv
    cases hk : kv.1 with
    | single a =>
        exfalso
        have hkv' : (Key.single a, kv.2) ∈ A := by
          have : kv = (Key.single a, kv.2) := by
            cases kv
            simp_all
          rw [← this]
          exact hkv
        rcases dlookup_isSome_of_mem hkv' with ⟨w, hw⟩
        rw [hAsingle a] at hw
        cases hw
    | tuple X => exact ⟨X, rfl⟩
  have hmem : ∀ kv : Key α × ℕ, kv ∈ A → ∀ X, kv.1 = Key.tuple X →
      dlookup A (Key.tuple X) = some kv.2 := by
    intro kv hkv X hk
    apply dlookup_eq_some_of_mem hndA
    have : kv = (Key.tuple X, kv.2) := by
      cases kv
      simp_all
    rw [← this]
    exact hkv
  have houter : ∀ kv : Key α × ℕ, kv ∈ A →
      ∃ yl, rulesForItemset F θ (keyItems kv.1) kv.2 = some yl := by
    intro kv hkv
    rcases hkey kv hkv with ⟨X, hk⟩
    have hl := hmem kv hkv X hk
    rcases rulesForItemset_char F θ X kv.2 (hsucc X kv.2 hl) with ⟨yl, hyl, _⟩
    refine ⟨yl, ?_⟩
    rw [hk]
    exact hyl
  rcases omapM_total houter with ⟨ys, hys⟩
  refine ⟨ys.flatten, ?_, ?_⟩
  · unfold generate_association_rules
    rw [hys]
    rfl
  · intro r
    rw [List.mem_flatten]
    constructor
    · rintro ⟨yl, hyl, hr⟩
      rcases (mem_omapM hys).mp hyl with ⟨kv, hkv, hkveq⟩
      rcases hkey kv hkv with ⟨X, hk⟩
      have hl := hmem kv hkv X hk
      rcases rulesForItemset_char F θ X kv.2 (hsucc X kv.2 hl) with ⟨yl', hyl', hchar⟩
      rw [hk] at hkveq
      have hyleq : yl' = yl := by
        have h1 : rulesForItemset F θ X kv.2 = some yl := hkveq
        rw [h1] at hyl'
        injection hyl' with h2
        exact h2.symm
      rcases (hchar r).mp (hyleq ▸ hr) with ⟨sub, hsub, m, hm, hre, hθ⟩
      exact ⟨X, kv.2, hl, sub, hsub, m, hm, hre, hθ⟩
    · rintro ⟨X, n, hXn, sub, hsub, m, hm, hre, hθ⟩
      have hkv : (Key.tuple X, n) ∈ A := mem_of_dlookup_eq_some hXn
      rcases rulesForItemset_char F θ X n (hsucc X n hXn) with ⟨yl, hyl, hchar⟩
      refine ⟨yl, ?_, (hchar r).mpr ⟨sub, hsub, m, hm, hre, hθ⟩⟩
      apply (mem_omapM hys).mpr
      exact ⟨(Key.tuple X, n), hkv, hyl⟩

end RulesChar

/-- C2: anti-monotonicity of the Driver's output.  For every corpus, support
threshold and level-1 table (bare-item keys, as the pipeline produces), every
non-empty proper sub-combination `A` of an itemset in `FrequentAboveOne` is
present (frequent) in `AllFrequent` under the rule miner's key shape
(`antKey`: the bare item when `|A| = 1`, the tuple otherwise); consequently
`generate_association_rules` never hits a missing antecedent lookup. -/
theorem C2_antimonotone_antecedents {α : Type} [LinearOrder α]
    (all_baskets : List (Finset α)) (support : ℤ) (c_1 : Dict (Key α) ℕ)
    (hnd : (dkeys c_1).Nodup)
    (hsingles : ∀ t, dlookup c_1 (Key.tuple t) = none) :
    (∀ X n,
      dlookup (apriori all_baskets support c_1).2 (Key.tuple X) = some n →
      ∀ i, 1 ≤ i → i < X.length → ∀ A ∈ List.sublistsLen i X,
        ∃ m, dlookup (apriori all_baskets support c_1).1 (antKey A) = some m) ∧
    (∀ θ : ℚ, ∃ rs,
      generate_association_rules (apriori all_baskets support c_1).1
        (apriori all_baskets support c_1).2 θ = some rs) := by
  have hmain : ∀ X n,
      dlookup (apriori all_baskets support c_1).2 (Key.tuple X) = some n →
      ∀ A ∈ antecedents X,
        ∃ m, dlookup (apriori all_baskets support c_1).1 (antKey A) = some m := by
    intro X n hX A hA
    rcases (apriori_above_char all_baskets support c_1 hnd hsingles X n hX).2.2.2.2.2
      A hA with ⟨m, hm, _⟩
    exact ⟨m, hm⟩
  constructor
  · intro X n hX i hi1 hi2 A hA
    exact hmain X n hX A (mem_antecedents.mpr ⟨i, hi1, hi2, hA⟩)
  · intro θ
    rcases gar_char (apriori all_baskets support c_1).1
      (apriori all_baskets support c_1).2 θ
      (apriori_nodup all_baskets support c_1 hnd).2
      (apriori_above_single all_baskets support c_1 hnd hsingles)
      (fun X n hX => hmain X n hX) with ⟨rs, hrs, _⟩
    exact ⟨rs, hrs⟩

/-- Closed instantiation of C2 on the spec's Scenario 1 corpus. -/
theorem C2_witness :
    (∃ m, dlookup (apriori
        ((generate_all_single_candidates [[(0 : ℕ), 1], [0, 1, 2], [0]]).2) 1
        ((generate_all_single_candidates [[(0 : ℕ), 1], [0, 1, 2], [0]]).1)).1
        (antKey [0]) = some m) ∧
    (∃ rs, generate_association_rules
        (apriori ((generate_all_single_candidates [[(0 : ℕ), 1], [0, 1, 2], [0]]).2) 1
          ((generate_all_single_candidates [[(0 : ℕ), 1], [0, 1, 2], [0]]).1)).1
        (apriori ((generate_all_single_candidates [[(0 : ℕ), 1], [0, 1, 2], [0]]).2) 1
          ((generate_all_single_candidates [[(0 : ℕ), 1], [0, 1, 2], [0]]).1)).2
        (1 / 2) = some rs) :=
  ⟨(C2_antimonotone_antecedents
      ((generate_all_single_candidates [[(0 : ℕ), 1], [0, 1, 2], [0]]).2) 1
      ((generate_all_single_candidates [[(0 : ℕ), 1], [0, 1, 2], [0]]).1)
      (by decide) (fun t => rfl)).1 [0, 1] 2 (by decide) 1 (by decide) (by decide)
      [0] (by decide),
   (C2_antimonotone_antecedents
      ((generate_all_single_candidates [[(0 : ℕ), 1], [0, 1, 2], [0]]).2) 1
      ((generate_all_single_candidates [[(0 : ℕ), 1], [0, 1, 2], [0]]).1)
      (by decide) (fun t => rfl)).2 (1 / 2)⟩

/-- C4: over the Driver's output, rule generation succeeds and a rule is
emitted exactly when its confidence — the exact rational
`support(itemset) / support(antecedent)`, with the antecedent looked up by
bare-item key for size-1 antecedents and by tuple key otherwise (`antKey`) —
is strictly greater than the threshold. -/
theorem C4_rule_emission_iff {α : Type} [LinearOrder α]
    (all_baskets : List (Finset α)) (support : ℤ) (c_1 : Dict (Key α) ℕ)
    (hnd : (dkeys c_1).Nodup)
    (hsingles : ∀ t, dlookup c_1 (Key.tuple t) = none) (θ : ℚ) :
    ∃ rs, generate_association_rules (apriori all_baskets support c_1).1
        (apriori all_baskets support c_1).2 θ = some rs ∧
      ∀ r, r ∈ rs ↔
        ∃ X n, dlookup (apriori all_baskets support c_1).2 (Key.tuple X) = some n ∧
          ∃ i, 1 ≤ i ∧ i < X.length ∧ ∃ sub ∈ List.sublistsLen i X,
            ∃ m, dlookup (apriori all_baskets support c_1).1 (antKey sub) = some m ∧
              r = ⟨sub.toFinset, X.toFinset \ sub.toFinset, n, (n : ℚ) / m⟩ ∧
              θ < (n : ℚ) / m := by
  have hmain : ∀ X n,
      dlookup (apriori all_baskets support c_1).2 (Key.tuple X) = some n →
      ∀ A ∈ antecedents X,
        ∃ m, dlookup (apriori all_baskets support c_1).1 (antKey A) = some m := by
    intro X n hX A hA
    rcases (apriori_above_char all_baskets support c_1 hnd hsingles X n hX).2.2.2.2.2
      A hA with ⟨m, hm, _⟩
    exact ⟨m, hm⟩
  rcases gar_char (apriori all_baskets support c_1).1
    (apriori all_baskets support c_1).2 θ
    (apriori_nodup all_baskets support c_1 hnd).2
    (apriori_above_single all_baskets support c_1 hnd hsingles) hmain
    with ⟨rs, hrs, hchar⟩
  refine ⟨rs, hrs, ?_⟩
  intro r
  rw [hchar r]
  constructor
  · rintro ⟨X, n, hXn, sub, hsub, m, hm, hre, hθ⟩
    rcases mem_antecedents.mp hsub with ⟨i, h1, h2, h3⟩
    exact ⟨X, n, hXn, i, h1, h2, sub, h3, m, hm, hre, hθ⟩
  · rintro ⟨X, n, hXn, i, h1, h2, sub, h3, m, hm, hre, hθ⟩
    exact ⟨X, n, hXn, sub, mem_antecedents.mpr ⟨i, h1, h2, h3⟩, m, hm, hre, hθ⟩

/-- Closed instantiation of C4 on the spec's Scenario 1 corpus with
threshold 1/2. -/
theorem C4_witness :
    ∃ rs, generate_association_rules
        (apriori ((generate_all_single_candidates [[(0 : ℕ), 1], [0, 1, 2], [0]]).2) 1
          ((generate_all_single_candidates [[(0 : ℕ), 1], [0, 1, 2], [0]]).1)).1
        (apriori ((generate_all_single_candidates [[(0 : ℕ), 1], [0, 1, 2], [0]]).2) 1
          ((generate_all_single_candidates [[(0 : ℕ), 1], [0, 1, 2], [0]]).1)).2
        (1 / 2) = some rs ∧
      ∀ r, r ∈ rs ↔
        ∃ X n, dlookup (apriori
            ((generate_all_single_candidates [[(0 : ℕ), 1], [0, 1, 2], [0]]).2) 1
            ((generate_all_single_candidates [[(0 : ℕ), 1], [0, 1, 2], [0]]).1)).2
            (Key.tuple X) = some n ∧
          ∃ i, 1 ≤ i ∧ i < X.length ∧ ∃ sub ∈ List.sublistsLen i X,
            ∃ m, dlookup (apriori
                ((generate_all_single_candidates [[(0 : ℕ), 1], [0, 1, 2], [0]]).2) 1
                ((generate_all_single_candidates [[(0 : ℕ), 1], [0, 1, 2], [0]]).1)).1
                (antKey sub) = some m ∧
              r = ⟨sub.toFinset, X.toFinset \ sub.toFinset, n, (n : ℚ) / m⟩ ∧
              (1 / 2 : ℚ) < (n : ℚ) / m :=
  C4_rule_emission_iff
    ((generate_all_single_candidates [[(0 : ℕ), 1], [0, 1, 2], [0]]).2) 1
    ((generate_all_single_candidates [[(0 : ℕ), 1], [0, 1, 2], [0]]).1)
    (by decide) (fun t => rfl) (1 / 2)

section AllCandChar

variable {α : Type} [LinearOrder α]

theorem candidatesForItemset_char (F : Dict (Key α) ℕ) (X : List α) (supp : ℕ)
    (hsucc : ∀ sub ∈ antecedents X, ∃ m, dlookup F (antKey sub) = some m) :
    ∃ zs, omapM (ruleOf F X supp) (antecedents X) = some zs ∧
      ∀ r, r ∈ zs ↔
        ∃ sub ∈ antecedents X, ∃ m, dlookup F (antKey sub) = some m ∧
          r = ⟨sub.toFinset, X.toFinset \ sub.toFinset, supp, (supp : ℚ) / m⟩ := by
  have htot : ∀ sub ∈ antecedents X, ∃ r', ruleOf F X supp sub = some r' := by
    intro sub hsub
    rcases hsucc sub hsub with ⟨m, hm⟩
    refine ⟨⟨sub.toFinset, X.toFinset \ sub.toFinset, supp, (supp : ℚ) / m⟩, ?_⟩
    unfold ruleOf
    rw [hm]
    rfl
  rcases omapM_total htot with ⟨zs, hzs⟩
  refine ⟨zs, hzs, ?_⟩
  intro r
  rw [mem_omapM hzs]
  constructor
  · rintro ⟨sub, hsub, hr⟩
    rcases ruleOf_eq_some_iff.mp hr with ⟨m, hm, hre⟩
    exact ⟨sub, hsub, m, hm, hre⟩
  · rintro ⟨sub, hsub, m, hm, hre⟩
    exact ⟨sub, hsub, ruleOf_eq_some_iff.mpr ⟨m, hm, hre⟩⟩

theorem allCandidateRules_char (F A : Dict (Key α) ℕ)
    (hndA : (dkeys A).Nodup)
    (hAsingle : ∀ a, dlookup A (Key.single a) = none)
    (hsucc : ∀ X n, dlookup A (Key.tuple X) = some n →
        ∀ sub ∈ antecedents X, ∃ m, dlookup F (antKey sub) = some m) :
    ∃ cand, allCandidateRules F A = some cand ∧
      (∀ r, r ∈ cand ↔
        ∃ X n, dlookup A (Key.tuple X) = some n ∧
          ∃ sub ∈ antecedents X, ∃ m, dlookup F (antKey sub) = some m ∧
            r = ⟨sub.toFinset, X.toFinset \ sub.toFinset, n, (n : ℚ) / m⟩) ∧
      ∀ θ : ℚ,
        generate_association_rules F A θ =
          some (cand.filter (fun r => decide (θ < r.conf))) := by
  have hkey : ∀ kv : Key α × ℕ, kv ∈ A → ∃ X, kv.1 = Key.tuple X := by
    intro kv hkv
    cases hk : kv.1 with
    | single a =>
        exfalso
        have hkv' : (Key.single a, kv.2) ∈ A := by
          have : kv = (Key.single a, kv.2) := by
            cases kv
            simp_all
          rw [← this]
          exact hkv
        rcases dlookup_isSome_of_mem hkv' with ⟨w, hw⟩
        rw [hAsingle a] at hw
        cases hw
    | tuple X => exact ⟨X, rfl⟩
  have hmem : ∀ kv : Key α × ℕ, kv ∈ A → ∀ X, kv.1 = Key.tuple X →
      dlookup A (Key.tuple X) = some kv.2 := by
    intro kv hkv X hk
    apply dlookup_eq_some_of_mem hndA
    have : kv = (Key.tuple X, kv.2) := by
      cases kv
      simp_all
    rw [← this]
    exact hkv
  have hinner : ∀ kv : Key α × ℕ, kv ∈ A →
      ∃ zs, omapM (ruleOf F (keyItems kv.1) kv.2)
        (antecedents (keyItems kv.1)) = some zs := by
    intro kv hkv
    rcases hkey kv hkv with ⟨X, hk⟩
    have hl := hmem kv hkv X hk
    rcases candidatesForItemset_char F X kv.2 (hsucc X kv.2 hl) with ⟨zs, hzs, _⟩
    refine ⟨zs, ?_⟩
    rw [hk]
    exact hzs
  rcases omapM_total hinner with ⟨ys, hys⟩
  refine ⟨ys.flatten, ?_, ?_, ?_⟩
  · unfold allCandidateRules
    rw [hys]
    rfl
  · intro r
    rw [List.mem_flatten]
    constructor
    · rintro ⟨yl, hyl, hr⟩
      rcases (mem_omapM hys).mp hyl with ⟨kv, hkv, hkveq⟩
      rcases hkey kv hkv with ⟨X, hk⟩
      have hl := hmem kv hkv X hk
      rcases candidatesForItemset_char F X kv.2 (hsucc X kv.2 hl) with ⟨zs, hzs, hchar⟩
      rw [hk] at hkveq
      have hzseq : zs = yl := by
        have h1 : omapM (ruleOf F X kv.2) (antecedents X) = some yl := hkveq
        rw [h1] at hzs
        injection hzs with h2
        exact h2.symm
      rcases (hchar r).mp (hzseq ▸ hr) with ⟨sub, hsub, m, hm, hre⟩
      exact ⟨X, kv.2, hl, sub, hsub, m, hm, hre⟩
    · rintro ⟨X, n, hXn, sub, hsub, m, hm, hre⟩
      have hkv : (Key.tuple X, n) ∈ A := mem_of_dlookup_eq_some hXn
      rcases candidatesForItemset_char F X n (hsucc X n hXn) with ⟨zs, hzs, hchar⟩
      exact ⟨zs, (mem_omapM hys).mpr ⟨(Key.tuple X, n), hkv, hzs⟩,
        (hchar r).mpr ⟨sub, hsub, m, hm, hre⟩⟩
  · intro θ
    have hpost : omapM (fun kv : Key α × ℕ =>
        rulesForItemset F θ (keyItems kv.1) kv.2) A =
        (omapM (fun kv : Key α × ℕ => omapM (ruleOf F (keyItems kv.1) kv.2)
          (antecedents (keyItems kv.1))) A).map
            (List.map (List.filter (fun r => decide (θ < r.conf)))) :=
      omapM_map_post _ _ A
    unfold generate_association_rules
    rw [hpost, hys]
    have hff := List.filter_flatten (fun r : Rule α => decide (θ < r.conf)) ys
    show some ((ys.map (List.filter (fun r => decide (θ < r.conf)))).flatten) =
      some (ys.flatten.filter (fun r => decide (θ < r.conf)))
    rw [hff]

end AllCandChar

section Pipeline

variable {α : Type} [LinearOrder α]

/-- The driver script's full pipeline: build `(c_1, all_baskets)` from the
corpus rows, then run `apriori`, yielding `(AllFrequent, FrequentAboveOne)`. -/
def pipelineTables (rows : List (List α)) (support : ℤ) :
    Dict (Key α) ℕ × Dict (Key α) ℕ :=
  apriori (generate_all_single_candidates rows).2 support
    (generate_all_single_candidates rows).1

theorem pipeline_c1_eq (rows : List (List α)) :
    (generate_all_single_candidates rows).1 =
      countTable rows (fun r => r.map Key.single) := by
  rw [generate_all_single_candidates_eq]

theorem pipeline_baskets_eq (rows : List (List α)) :
    (generate_all_single_candidates rows).2 = rows.map List.toFinset := by
  rw [generate_all_single_candidates_eq]

theorem pipeline_c1_nodup (rows : List (List α)) :
    (dkeys (generate_all_single_candidates rows).1).Nodup := by
  rw [pipeline_c1_eq]
  exact dkeys_nodup_countTable rows _

theorem pipeline_c1_singles (rows : List (List α)) (t : List α) :
    dlookup (generate_all_single_candidates rows).1 (Key.tuple t) = none := by
  rw [pipeline_c1_eq, dlookup_countTable]
  have hz : (rows.map fun r => (r.map Key.single).count (Key.tuple t)).sum = 0 := by
    apply List.sum_eq_zero
    intro x hx
    rcases List.mem_map.mp hx with ⟨r, _, hre⟩
    rw [← hre]
    apply List.count_eq_zero_of_not_mem
    intro hm
    rcases List.mem_map.mp hm with ⟨a, _, ha⟩
    cases ha
  rw [hz]
  rfl

theorem pipeline_c1_pos (rows : List (List α)) (key : Key α) (n : ℕ)
    (h : dlookup (generate_all_single_candidates rows).1 key = some n) : 1 ≤ n := by
  rw [pipeline_c1_eq] at h
  exact dlookup_countTable_pos rows _ key n h

/-- The support of a single item at level 1 (its occurrence count over the
rows) bounds from above the basket count of any itemset containing it. -/
theorem pipeline_single_support_ge (rows : List (List α)) {a : α} {X : List α}
    (haX : a ∈ X) {m : ℕ}
    (hm : dlookup (generate_all_single_candidates rows).1 (Key.single a) = some m) :
    ((generate_all_single_candidates rows).2).countP
      (fun b => decide (X.toFinset ⊆ b)) ≤ m := by
  rw [dlookup_single_counter rows a] at hm
  by_cases h0 : (rows.map fun r => r.count a).sum = 0
  · rw [if_pos h0] at hm
    cases hm
  · rw [if_neg h0] at hm
    injection hm with hsum
    rw [pipeline_baskets_eq]
    calc (rows.map List.toFinset).countP (fun b => decide (X.toFinset ⊆ b))
        ≤ (rows.map List.toFinset).countP (fun b => decide (a ∈ b)) := by
          apply countP_le_countP_of_imp
          intro b _ hXb
          exact decide_eq_true
            ((of_decide_eq_true hXb) (List.mem_toFinset.mpr haX))
      _ = rows.countP (fun r => decide (a ∈ r.toFinset)) := by
          rw [List.countP_map]
          rfl
      _ ≤ (rows.map fun r => r.count a).sum := by
          apply countP_le_sum_map
          intro r _ hp
          exact List.one_le_count_iff.mpr (List.mem_toFinset.mp (of_decide_eq_true hp))
      _ = m := hsum

end Pipeline

section C7Section

variable {α : Type} [LinearOrder α]

theorem pipeline_cand_bounds (rows : List (List α)) (support : ℤ) :
    ∀ X n, dlookup (apriori (generate_all_single_candidates rows).2 support
        (generate_all_single_candidates rows).1).2 (Key.tuple X) = some n →
    ∀ sub ∈ antecedents X, ∀ m,
      dlookup (apriori (generate_all_single_candidates rows).2 support
        (generate_all_single_candidates rows).1).1 (antKey sub) = some m →
      1 ≤ n ∧ n ≤ m := by
  intro X n hXn sub hsub m hm
  have hinfo := apriori_above_char (generate_all_single_candidates rows).2 support
    (generate_all_single_candidates rows).1
    (pipeline_c1_nodup rows) (pipeline_c1_singles rows) X n hXn
  have hn1 : 1 ≤ n := hinfo.2.2.2.1
  rcases hinfo.2.2.2.2.2 sub hsub with ⟨m₀, hm₀, hprov⟩
  have hmm : m₀ = m := by
    rw [hm₀] at hm
    injection hm
  subst hmm
  refine ⟨hn1, ?_⟩
  rcases hprov with ⟨a, hsubeq, hl1⟩ | ⟨_, hnm, _, _⟩
  · have hc1v : dlookup (generate_all_single_candidates rows).1 (Key.single a) =
        some m₀ :=
      ((dlookup_filter_candidates_some (pipeline_c1_nodup rows)).mp hl1).1
    have haX : a ∈ X := by
      rcases mem_antecedents.mp hsub with ⟨i, _, _, hmemi⟩
      have hsl := (List.mem_sublistsLen.mp hmemi).1
      rw [hsubeq] at hsl
      exact hsl.subset (List.mem_singleton_self a)
    rw [hinfo.2.2.1]
    exact pipeline_single_support_ge rows haX hc1v
  · exact hnm

/-- C7: the rule miner accepts any confidence threshold unvalidated.  On
pipeline-produced tables, rule generation succeeds and equals the candidate
list filtered by `conf > θ`; every candidate confidence lies in `(0, 1]`, so
a threshold `≥ 1` yields zero rules and a threshold `≤ 0` yields every
candidate rule. -/
theorem C7_confidence_threshold_range (rows : List (List α)) (support : ℤ) :
    ∃ cand,
      allCandidateRules (pipelineTables rows support).1
        (pipelineTables rows support).2 = some cand ∧
      (∀ r ∈ cand, 0 < r.conf ∧ r.conf ≤ 1) ∧
      (∀ θ : ℚ, generate_association_rules (pipelineTables rows support).1
          (pipelineTables rows support).2 θ =
            some (cand.filter (fun r => decide (θ < r.conf)))) ∧
      (∀ θ : ℚ, 1 ≤ θ → generate_association_rules (pipelineTables rows support).1
          (pipelineTables rows support).2 θ = some []) ∧
      (∀ θ : ℚ, θ ≤ 0 → generate_association_rules (pipelineTables rows support).1
          (pipelineTables rows support).2 θ = some cand) := by
  unfold pipelineTables
  have hnd := pipeline_c1_nodup rows
  have hsing := pipeline_c1_singles rows
  have hmain : ∀ X n,
      dlookup (apriori (generate_all_single_candidates rows).2 support
        (generate_all_single_candidates rows).1).2 (Key.tuple X) = some n →
      ∀ sub ∈ antecedents X,
        ∃ m, dlookup (apriori (generate_all_single_candidates rows).2 support
          (generate_all_single_candidates rows).1).1 (antKey sub) = some m := by
    intro X n hX A hA
    rcases (apriori_above_char (generate_all_single_candidates rows).2 support
      (generate_all_single_candidates rows).1 hnd hsing X n hX).2.2.2.2.2
      A hA with ⟨m, hm, _⟩
    exact ⟨m, hm⟩
  rcases allCandidateRules_char
    (apriori (generate_all_single_candidates rows).2 support
      (generate_all_single_candidates rows).1).1
    (apriori (generate_all_single_candidates rows).2 support
      (generate_all_single_candidates rows).1).2
    (apriori_nodup _ _ _ hnd).2
    (apriori_above_single _ _ _ hnd hsing) hmain with ⟨cand, hcand, hmemc, hfil⟩
  have hbounds : ∀ r ∈ cand, 0 < r.conf ∧ r.conf ≤ 1 := by
    intro r hr
    rcases (hmemc r).mp hr with ⟨X, n, hXn, sub, hsub, m, hm, hre⟩
    have hb := pipeline_cand_bounds rows support X n hXn sub hsub m hm
    have hm1 : 1 ≤ m := le_trans hb.1 hb.2
    constructor
    · rw [hre]
      show (0 : ℚ) < (n : ℚ) / (m : ℚ)
      apply div_pos
      · exact_mod_cast (show 0 < n by omega)
      · exact_mod_cast (show 0 < m by omega)
    · rw [hre]
      show (n : ℚ) / (m : ℚ) ≤ 1
      rw [div_le_one (by exact_mod_cast (show 0 < m by omega) : (0 : ℚ) < (m : ℚ))]
      exact_mod_cast hb.2
  refine ⟨cand, hcand, hbounds, hfil, ?_, ?_⟩
  · intro θ hθ
    rw [hfil θ]
    congr 1
    apply List.filter_eq_nil_iff.mpr
    intro r hr hd
    exact absurd (of_decide_eq_true hd)
      (not_lt.mpr (le_trans (hbounds r hr).2 hθ))
  · intro θ hθ
    rw [hfil θ]
    congr 1
    apply List.filter_eq_self.mpr
    intro r hr
    exact decide_eq_true (lt_of_le_of_lt hθ (hbounds r hr).1)

end C7Section

/-- Closed instantiation of C7 on the spec's Scenario 1 corpus: threshold 2
yields no rules, threshold -1 yields every candidate rule. -/
theorem C7_witness :
    (generate_association_rules
      (pipelineTables [[(0 : ℕ), 1], [0, 1, 2], [0]] 1).1
      (pipelineTables [[(0 : ℕ), 1], [0, 1, 2], [0]] 1).2 2 = some []) ∧
    ∃ cand, allCandidateRules
        (pipelineTables [[(0 : ℕ), 1], [0, 1, 2], [0]] 1).1
        (pipelineTables [[(0 : ℕ), 1], [0, 1, 2], [0]] 1).2 = some cand ∧
      generate_association_rules
        (pipelineTables [[(0 : ℕ), 1], [0, 1, 2], [0]] 1).1
        (pipelineTables [[(0 : ℕ), 1], [0, 1, 2], [0]] 1).2 (-1) = some cand := by
  rcases C7_confidence_threshold_range [[(0 : ℕ), 1], [0, 1, 2], [0]] 1 with
    ⟨cand, hcand, _, _, hhi, hlo⟩
  exact ⟨hhi 2 (by norm_num), cand, hcand, hlo (-1) (by norm_num)⟩

/-- C10: no zero counts anywhere.  Every count in `C_1` and in every
candidate table `C_k` is at least 1 (keys are only ever created by an
increment), hence so is every count in `AllFrequent` and `FrequentAboveOne`,
and every antecedent-support denominator used by the rule miner is a
positive integer — the confidence division never divides by zero. -/
theorem C10_counts_positive {α : Type} [LinearOrder α]
    (rows : List (List α)) (support : ℤ) :
    (∀ key n, dlookup (generate_all_single_candidates rows).1 key = some n →
      1 ≤ n) ∧
    (∀ (all_baskets : List (Finset α)) (l_1 : Dict (Key α) ℕ) (k : ℕ)
        (key : Key α) (n : ℕ),
      dlookup (generate_next_candidates all_baskets l_1 k) key = some n →
      1 ≤ n) ∧
    (∀ key n, dlookup (pipelineTables rows support).1 key = some n → 1 ≤ n) ∧
    (∀ key n, dlookup (pipelineTables rows support).2 key = some n → 1 ≤ n) ∧
    (∀ X n, dlookup (pipelineTables rows support).2 (Key.tuple X) = some n →
      ∀ sub ∈ antecedents X,
        ∃ m, dlookup (pipelineTables rows support).1 (antKey sub) = some m ∧
          1 ≤ m) := by
  have hgenpos : ∀ (all_baskets : List (Finset α)) (l_1 : Dict (Key α) ℕ) (k : ℕ)
      (key : Key α) (n : ℕ),
      dlookup (generate_next_candidates all_baskets l_1 k) key = some n →
      1 ≤ n := by
    intro all_baskets l_1 k key n h
    exact dlookup_countTable_pos all_baskets _ key n h
  have hnd := pipeline_c1_nodup rows
  have hsing := pipeline_c1_singles rows
  obtain ⟨K, hK2, hInv⟩ := apriori_inv (generate_all_single_candidates rows).2
    support (generate_all_single_candidates rows).1 hnd hsing
  obtain ⟨hAb, hAbS, hAf, hAfS, _⟩ := hInv
  have hl1pos : ∀ a n,
      dlookup (filter_candidates (generate_all_single_candidates rows).1 support)
        (Key.single a) = some n → 1 ≤ n := by
    intro a n h
    exact pipeline_c1_pos rows (Key.single a) n
      ((dlookup_filter_candidates_some hnd).mp h).1
  have hlevpos : ∀ (j : ℕ) (t : List α) (n : ℕ),
      dlookup (levelTable (generate_all_single_candidates rows).2 support
        (filter_candidates (generate_all_single_candidates rows).1 support) j)
        (Key.tuple t) = some n → 1 ≤ n := by
    intro j t n h
    exact hgenpos _ _ j (Key.tuple t) n (dlookup_levelTable_some.mp h).1
  have hFpos : ∀ key n,
      dlookup (pipelineTables rows support).1 key = some n → 1 ≤ n := by
    intro key n h
    have h' : dlookup (apriori (generate_all_single_candidates rows).2 support
        (generate_all_single_candidates rows).1).1 key = some n := h
    cases key with
    | single a => exact hl1pos a n ((hAfS a n).mp h')
    | tuple t => exact hlevpos t.length t n (hAf t n h').2.2
  refine ⟨fun key n h => pipeline_c1_pos rows key n h, hgenpos, hFpos, ?_, ?_⟩
  · intro key n h
    have h' : dlookup (apriori (generate_all_single_candidates rows).2 support
        (generate_all_single_candidates rows).1).2 key = some n := h
    cases key with
    | single a =>
        rw [hAbS a] at h'
        cases h'
    | tuple t => exact hlevpos t.length t n (hAb t n h').2.2
  · intro X n hX sub hsub
    have hX' : dlookup (apriori (generate_all_single_candidates rows).2 support
        (generate_all_single_candidates rows).1).2 (Key.tuple X) = some n := hX
    rcases (apriori_above_char (generate_all_single_candidates rows).2 support
      (generate_all_single_candidates rows).1 hnd hsing X n hX').2.2.2.2.2
      sub hsub with ⟨m, hm, _⟩
    exact ⟨m, hm, hFpos (antKey sub) m hm⟩

/-- Closed instantiation of C10: antecedent `[0]` of the frequent pair
`[0, 1]` has a positive support denominator. -/
theorem C10_witness :
    ∃ m, dlookup (pipelineTables [[(0 : ℕ), 1], [0, 1, 2], [0]] 1).1
      (antKey [0]) = some m ∧ 1 ≤ m :=
  (C10_counts_positive [[(0 : ℕ), 1], [0, 1, 2], [0]] 1).2.2.2.2 [0, 1] 2
    (by decide) [0] (by decide)

section PermMachinery

variable {α : Type} [LinearOrder α]

theorem dlookup_countTable_perm {ρ κ : Type} [DecidableEq κ] {rows rows' : List ρ}
    (hp : rows.Perm rows') (keysOf : ρ → List κ) (key : κ) :
    dlookup (countTable rows keysOf) key = dlookup (countTable rows' keysOf) key := by
  rw [dlookup_countTable, dlookup_countTable,
    (hp.map fun r => (keysOf r).count key).sum_eq]

theorem isEmpty_eq_of_perm {β : Type} {l l' : List β} (h : l.Perm l') :
    l.isEmpty = l'.isEmpty := by
  have hl := h.length_eq
  cases l <;> cases l' <;> simp_all

theorem dictMerge_perm {κ ν : Type} [DecidableEq κ] {a a' b b' : Dict κ ν}
    (hnda : (dkeys a).Nodup) (hndb : (dkeys b).Nodup)
    (ha : a.Perm a') (hb : b.Perm b') :
    (dictMerge a b).Perm (dictMerge a' b') := by
  have hbl : ∀ key, dlookup b key = dlookup b' key := dlookup_eq_of_perm hndb hb
  have hal : ∀ key, dlookup a key = dlookup a' key := dlookup_eq_of_perm hnda ha
  unfold dictMerge
  apply List.Perm.append
  · have hfe : (fun kv : κ × ν => (kv.1, (dlookup b kv.1).getD kv.2)) =
        (fun kv : κ × ν => (kv.1, (dlookup b' kv.1).getD kv.2)) := by
      funext kv
      rw [hbl kv.1]
    rw [hfe]
    exact ha.map _
  · have hfe : (fun kv : κ × ν => (dlookup a kv.1).isNone) =
        (fun kv : κ × ν => (dlookup a' kv.1).isNone) := by
      funext kv
      rw [hal kv.1]
    rw [hfe]
    exact hb.filter _

theorem maxBasketSize_le {all_baskets : List (Finset α)} {c : ℕ}
    (h : ∀ b ∈ all_baskets, b.card ≤ c) : maxBasketSize all_baskets ≤ c := by
  unfold maxBasketSize
  induction all_baskets with
  | nil => exact Nat.zero_le c
  | cons x rest ih =>
      apply max_le
      · exact h x (List.mem_cons_self x rest)
      · exact ih (fun b hb => h b (List.mem_cons_of_mem x hb))

theorem maxBasketSize_perm {all_baskets all_baskets' : List (Finset α)}
    (h : all_baskets.Perm all_baskets') :
    maxBasketSize all_baskets = maxBasketSize all_baskets' := by
  apply le_antisymm
  · exact maxBasketSize_le (fun b hb => le_maxBasketSize (h.mem_iff.mp hb))
  · exact maxBasketSize_le (fun b hb => le_maxBasketSize (h.mem_iff.mpr hb))

theorem l1ItemSet_eq_of_perm {l_1 l_1' : Dict (Key α) ℕ} (h : l_1.Perm l_1') :
    l1ItemSet l_1 = l1ItemSet l_1' := by
  unfold l1ItemSet
  exact List.toFinset_eq_of_perm _ _ (h.filterMap _)

theorem generate_next_candidates_lookup_perm
    {all_baskets all_baskets' : List (Finset α)} {l_1 l_1' : Dict (Key α) ℕ}
    (hb : all_baskets.Perm all_baskets') (hl : l1ItemSet l_1 = l1ItemSet l_1')
    (k : ℕ) (key : Key α) :
    dlookup (generate_next_candidates all_baskets l_1 k) key =
      dlookup (generate_next_candidates all_baskets' l_1' k) key := by
  unfold generate_next_candidates
  rw [hl]
  exact dlookup_countTable_perm hb _ key

theorem generate_next_candidates_perm
    {all_baskets all_baskets' : List (Finset α)} {l_1 l_1' : Dict (Key α) ℕ}
    (hb : all_baskets.Perm all_baskets') (hl : l1ItemSet l_1 = l1ItemSet l_1')
    (k : ℕ) :
    (generate_next_candidates all_baskets l_1 k).Perm
      (generate_next_candidates all_baskets' l_1' k) :=
  perm_of_dlookup_eq (dkeys_nodup_generate_next_candidates all_baskets l_1 k)
    (dkeys_nodup_generate_next_candidates all_baskets' l_1' k)
    (generate_next_candidates_lookup_perm hb hl k)

theorem levelTable_perm {all_baskets all_baskets' : List (Finset α)} {support : ℤ}
    {l_1 l_1' : Dict (Key α) ℕ}
    (hb : all_baskets.Perm all_baskets') (hl : l1ItemSet l_1 = l1ItemSet l_1')
    (j : ℕ) :
    (levelTable all_baskets support l_1 j).Perm
      (levelTable all_baskets' support l_1' j) :=
  (generate_next_candidates_perm hb hl j).filter _

theorem aprioriLoop_perm {all_baskets all_baskets' : List (Finset α)} {support : ℤ}
    {l_1 l_1' : Dict (Key α) ℕ}
    (hb : all_baskets.Perm all_baskets') (hl : l1ItemSet l_1 = l1ItemSet l_1') :
    ∀ (fuel k : ℕ) (l_k l_k' allFreq allFreq' above above' : Dict (Key α) ℕ),
      l_k.Perm l_k' → allFreq.Perm allFreq' → above.Perm above' →
      (dkeys allFreq).Nodup → (dkeys above).Nodup →
      (aprioriLoop all_baskets support l_1 fuel k l_k allFreq above).1.Perm
        (aprioriLoop all_baskets' support l_1' fuel k l_k' allFreq' above').1 ∧
      (aprioriLoop all_baskets support l_1 fuel k l_k allFreq above).2.Perm
        (aprioriLoop all_baskets' support l_1' fuel k l_k' allFreq' above').2 := by
  intro fuel
  induction fuel with
  | zero =>
      intro k l_k l_k' allFreq allFreq' above above' _ hF hA _ _
      exact ⟨hF, hA⟩
  | succ fuel ih =>
      intro k l_k l_k' allFreq allFreq' above above' hlk hF hA hndF hndA
      rw [aprioriLoop_succ, aprioriLoop_succ]
      have hie : l_k.isEmpty = l_k'.isEmpty := isEmpty_eq_of_perm hlk
      cases he : l_k.isEmpty
      · rw [if_neg (by simp [he]), if_neg (by simp [← hie, he])]
        have hlev := @levelTable_perm α _ _ _ support _ _ hb hl k
        exact ih (k + 1) _ _ _ _ _ _ hlev
          (dictMerge_perm hndF
            (dkeys_nodup_levelTable all_baskets support l_1 k) hF hlev)
          (dictMerge_perm hndA
            (dkeys_nodup_levelTable all_baskets support l_1 k) hA hlev)
          (dkeys_nodup_dictMerge hndF
            (dkeys_nodup_levelTable all_baskets support l_1 k))
          (dkeys_nodup_dictMerge hndA
            (dkeys_nodup_levelTable all_baskets support l_1 k))
      · rw [if_pos (by simp [he]), if_pos (by simp [← hie, he])]
        exact ⟨hF, hA⟩

end PermMachinery

section C9Section

variable {α : Type} [LinearOrder α]

theorem apriori_perm (rows rows' : List (List α)) (hp : rows.Perm rows')
    (support : ℤ) :
    (pipelineTables rows support).1.Perm (pipelineTables rows' support).1 ∧
    (pipelineTables rows support).2.Perm (pipelineTables rows' support).2 := by
  have hc1eq : ∀ key, dlookup (generate_all_single_candidates rows).1 key =
      dlookup (generate_all_single_candidates rows').1 key := by
    intro key
    rw [pipeline_c1_eq, pipeline_c1_eq]
    exact dlookup_countTable_perm hp _ key
  have hc1p := perm_of_dlookup_eq (pipeline_c1_nodup rows)
    (pipeline_c1_nodup rows') hc1eq
  have hl1p : (filter_candidates (generate_all_single_candidates rows).1
      support).Perm
      (filter_candidates (generate_all_single_candidates rows').1 support) := by
    unfold filter_candidates
    exact hc1p.filter _
  have hbp : ((generate_all_single_candidates rows).2).Perm
      ((generate_all_single_candidates rows').2) := by
    rw [pipeline_baskets_eq, pipeline_baskets_eq]
    exact hp.map _
  have hmx : maxBasketSize (generate_all_single_candidates rows).2 =
      maxBasketSize (generate_all_single_candidates rows').2 :=
    maxBasketSize_perm hbp
  have hmain := @aprioriLoop_perm α _ _ _ support _ _ hbp (l1ItemSet_eq_of_perm hl1p)
    (maxBasketSize (generate_all_single_candidates rows).2 + 1) 2
    (filter_candidates (generate_all_single_candidates rows).1 support)
    (filter_candidates (generate_all_single_candidates rows').1 support)
    (filter_candidates (generate_all_single_candidates rows).1 support)
    (filter_candidates (generate_all_single_candidates rows').1 support)
    [] [] hl1p hl1p (List.Perm.refl [])
    (dkeys_nodup_filter_candidates (pipeline_c1_nodup rows) support)
    List.nodup_nil
  have e1 : pipelineTables rows support =
      aprioriLoop (generate_all_single_candidates rows).2 support
        (filter_candidates (generate_all_single_candidates rows).1 support)
        (maxBasketSize (generate_all_single_candidates rows).2 + 1) 2
        (filter_candidates (generate_all_single_candidates rows).1 support)
        (filter_candidates (generate_all_single_candidates rows).1 support)
        [] := rfl
  have e2 : pipelineTables rows' support =
      aprioriLoop (generate_all_single_candidates rows').2 support
        (filter_candidates (generate_all_single_candidates rows').1 support)
        (maxBasketSize (generate_all_single_candidates rows').2 + 1) 2
        (filter_candidates (generate_all_single_candidates rows').1 support)
        (filter_candidates (generate_all_single_candidates rows').1 support)
        [] := rfl
  rw [e1, e2, ← hmx]
  exact hmain

/-- C9: permuting the corpus's rows changes neither the Level-1 count table
nor any level's candidate table (as lookup maps), hence neither `AllFrequent`
nor `FrequentAboveOne`, and the set of emitted association rules is the
same for every confidence threshold. -/
theorem C9_basket_order_irrelevant (rows rows' : List (List α)) (support : ℤ)
    (hp : rows.Perm rows') :
    (∀ key : Key α, dlookup (generate_all_single_candidates rows).1 key =
        dlookup (generate_all_single_candidates rows').1 key) ∧
    (∀ (k : ℕ) (key : Key α),
      dlookup (generate_next_candidates (generate_all_single_candidates rows).2
        (filter_candidates (generate_all_single_candidates rows).1 support) k)
        key =
      dlookup (generate_next_candidates (generate_all_single_candidates rows').2
        (filter_candidates (generate_all_single_candidates rows').1 support) k)
        key) ∧
    (∀ key : Key α, dlookup (pipelineTables rows support).1 key =
        dlookup (pipelineTables rows' support).1 key) ∧
    (∀ key : Key α, dlookup (pipelineTables rows support).2 key =
        dlookup (pipelineTables rows' support).2 key) ∧
    (∀ θ : ℚ, ∃ rs rs',
      generate_association_rules (pipelineTables rows support).1
        (pipelineTables rows support).2 θ = some rs ∧
      generate_association_rules (pipelineTables rows' support).1
        (pipelineTables rows' support).2 θ = some rs' ∧
      ∀ r, r ∈ rs ↔ r ∈ rs') := by
  have hc1eq : ∀ key, dlookup (generate_all_single_candidates rows).1 key =
      dlookup (generate_all_single_candidates rows').1 key := by
    intro key
    rw [pipeline_c1_eq, pipeline_c1_eq]
    exact dlookup_countTable_perm hp _ key
  have hc1p := perm_of_dlookup_eq (pipeline_c1_nodup rows)
    (pipeline_c1_nodup rows') hc1eq
  have hl1p : (filter_candidates (generate_all_single_candidates rows).1
      support).Perm
      (filter_candidates (generate_all_single_candidates rows').1 support) := by
    unfold filter_candidates
    exact hc1p.filter _
  have hbp : ((generate_all_single_candidates rows).2).Perm
      ((generate_all_single_candidates rows').2) := by
    rw [pipeline_baskets_eq, pipeline_baskets_eq]
    exact hp.map _
  have hper := apriori_perm rows rows' hp support
  have hFeq : ∀ key : Key α, dlookup (pipelineTables rows support).1 key =
      dlookup (pipelineTables rows' support).1 key :=
    dlookup_eq_of_perm
      (apriori_nodup _ _ _ (pipeline_c1_nodup rows)).1 hper.1
  have hAeq : ∀ key : Key α, dlookup (pipelineTables rows support).2 key =
      dlookup (pipelineTables rows' support).2 key :=
    dlookup_eq_of_perm
      (apriori_nodup _ _ _ (pipeline_c1_nodup rows)).2 hper.2
  refine ⟨hc1eq, ?_, hFeq, hAeq, ?_⟩
  · intro k key
    exact generate_next_candidates_lookup_perm hbp (l1ItemSet_eq_of_perm hl1p) k key
  · intro θ
    have hmain1 : ∀ X n,
        dlookup (pipelineTables rows support).2 (Key.tuple X) = some n →
        ∀ sub ∈ antecedents X,
          ∃ m, dlookup (pipelineTables rows support).1 (antKey sub) = some m := by
      intro X n hX A hA
      rcases (apriori_above_char (generate_all_single_candidates rows).2 support
        (generate_all_single_candidates rows).1 (pipeline_c1_nodup rows)
        (pipeline_c1_singles rows) X n hX).2.2.2.2.2 A hA with ⟨m, hm, _⟩
      exact ⟨m, hm⟩
    have hmain2 : ∀ X n,
        dlookup (pipelineTables rows' support).2 (Key.tuple X) = some n →
        ∀ sub ∈ antecedents X,
          ∃ m, dlookup (pipelineTables rows' support).1 (antKey sub) = some m := by
      intro X n hX A hA
      rcases (apriori_above_char (generate_all_single_candidates rows').2 support
        (generate_all_single_candidates rows').1 (pipeline_c1_nodup rows')
        (pipeline_c1_singles rows') X n hX).2.2.2.2.2 A hA with ⟨m, hm, _⟩
      exact ⟨m, hm⟩
    rcases gar_char (pipelineTables rows support).1 (pipelineTables rows support).2
      θ (apriori_nodup _ _ _ (pipeline_c1_nodup rows)).2
      (apriori_above_single _ _ _ (pipeline_c1_nodup rows)
        (pipeline_c1_singles rows)) hmain1 with ⟨rs, hrs, hchar1⟩
    rcases gar_char (pipelineTables rows' support).1
      (pipelineTables rows' support).2
      θ (apriori_nodup _ _ _ (pipeline_c1_nodup rows')).2
      (apriori_above_single _ _ _ (pipeline_c1_nodup rows')
        (pipeline_c1_singles rows')) hmain2 with ⟨rs', hrs', hchar2⟩
    refine ⟨rs, rs', hrs, hrs', ?_⟩
    intro r
    rw [hchar1 r, hchar2 r]
    constructor
    · rintro ⟨X, n, hXn, sub, hsub, m, hm, hre, hθ⟩
      refine ⟨X, n, ?_, sub, hsub, m, ?_, hre, hθ⟩
      · rw [← hAeq]
        exact hXn
      · rw [← hFeq]
        exact hm
    · rintro ⟨X, n, hXn, sub, hsub, m, hm, hre, hθ⟩
      refine ⟨X, n, ?_, sub, hsub, m, ?_, hre, hθ⟩
      · rw [hAeq]
        exact hXn
      · rw [hFeq]
        exact hm

end C9Section

/-- Closed instantiation of C9: the two-row corpus and its reversal give the
same counts and the same rules. -/
theorem C9_witness :
    (dlookup (generate_all_single_candidates [[(0 : ℕ), 1], [0]]).1
        (Key.single 0) =
      dlookup (generate_all_single_candidates [[(0 : ℕ)], [0, 1]]).1
        (Key.single 0)) ∧
    (dlookup (pipelineTables [[(0 : ℕ), 1], [0]] 0).2 (Key.tuple [0, 1]) =
      dlookup (pipelineTables [[(0 : ℕ)], [0, 1]] 0).2 (Key.tuple [0, 1])) ∧
    ∃ rs rs',
      generate_association_rules (pipelineTables [[(0 : ℕ), 1], [0]] 0).1
        (pipelineTables [[(0 : ℕ), 1], [0]] 0).2 (1 / 2) = some rs ∧
      generate_association_rules (pipelineTables [[(0 : ℕ)], [0, 1]] 0).1
        (pipelineTables [[(0 : ℕ)], [0, 1]] 0).2 (1 / 2) = some rs' ∧
      ∀ r, r ∈ rs ↔ r ∈ rs' :=
  ⟨(C9_basket_order_irrelevant [[(0 : ℕ), 1], [0]] [[(0 : ℕ)], [0, 1]] 0
      (by decide)).1 (Key.single 0),
   (C9_basket_order_irrelevant [[(0 : ℕ), 1], [0]] [[(0 : ℕ)], [0, 1]] 0
      (by decide)).2.2.2.1 (Key.tuple [0, 1]),
   (C9_basket_order_irrelevant [[(0 : ℕ), 1], [0]] [[(0 : ℕ)], [0, 1]] 0
      (by decide)).2.2.2.2 (1 / 2)⟩
